import Mathlib

/-!
Verification development for the Mesh-Trace Node-1 crash detection unit.

Shallow embedding of the Python sources under `node1_crash_unit/`:
bytes are `Nat` values below 256, byte strings are `List Nat`, file
contents are lists of text lines, and stateful code is explicit state
passing plus event traces.  External libraries (the `cryptography`
package's Fernet recipe, paho-mqtt, json, gzip) are embedded at the
granularity the repository uses them: Fernet's framing, padding and CBC
chaining are spelled out in full, while the AES block permutation and the
HMAC-SHA256 compression are parameters constrained by their library
contracts (length preservation, invertibility, byte-valued output).
-/

namespace MeshTrace

/-! ## Bytes -/

/-- A byte string: every element fits in one octet. -/
def ByteOk (l : List Nat) : Prop := ∀ b ∈ l, b < 256

/-- Pointwise XOR of two byte strings (as used by CBC chaining). -/
def xorBytes (a b : List Nat) : List Nat := List.zipWith Nat.xor a b

theorem byteOk_nil : ByteOk [] := by intro b hb; cases hb

theorem byteOk_append {a b : List Nat} (ha : ByteOk a) (hb : ByteOk b) :
    ByteOk (a ++ b) := by
  intro x hx
  rcases List.mem_append.mp hx with h | h
  · exact ha x h
  · exact hb x h

theorem byteOk_take {a : List Nat} (ha : ByteOk a) (n : Nat) : ByteOk (a.take n) := by
  intro x hx; exact ha x (List.mem_of_mem_take hx)

theorem byteOk_drop {a : List Nat} (ha : ByteOk a) (n : Nat) : ByteOk (a.drop n) := by
  intro x hx; exact ha x (List.mem_of_mem_drop hx)

theorem byteOk_replicate {n v : Nat} (hv : v < 256) : ByteOk (List.replicate n v) := by
  intro x hx
  rcases List.eq_of_mem_replicate hx with rfl
  exact hv

theorem xorBytes_length (a b : List Nat) :
    (xorBytes a b).length = min a.length b.length := by
  simp [xorBytes]

theorem xor_byte_lt {a b : Nat} (ha : a < 256) (hb : b < 256) : a ^^^ b < 256 := by
  have h : a ^^^ b < 2 ^ 8 :=
    Nat.bitwise_lt (by simpa using ha) (by simpa using hb)
  simpa using h

theorem byteOk_xorBytes {a b : List Nat} (ha : ByteOk a) (hb : ByteOk b) :
    ByteOk (xorBytes a b) := by
  induction a generalizing b with
  | nil => intro x hx; simp [xorBytes] at hx
  | cons x xs ih =>
    cases b with
    | nil => intro z hz; simp [xorBytes] at hz
    | cons y ys =>
      intro z hz
      simp only [xorBytes, List.zipWith_cons_cons, List.mem_cons] at hz
      rcases hz with rfl | hz
      · exact xor_byte_lt (ha x (by simp)) (hb y (by simp))
      · exact ih (fun u hu => ha u (by simp [hu])) (fun u hu => hb u (by simp [hu])) z hz

theorem xorBytes_cancel_left {a b : List Nat} (h : a.length = b.length) :
    xorBytes a (xorBytes a b) = b := by
  induction a generalizing b with
  | nil => cases b with
    | nil => rfl
    | cons x xs => simp at h
  | cons x xs ih =>
    cases b with
    | nil => simp at h
    | cons y ys =>
      simp only [xorBytes, List.zipWith_cons_cons]
      have hx : Nat.xor x (Nat.xor x y) = y := Nat.xor_cancel_left x y
      rw [hx]
      exact congrArg (List.cons y) (ih (by simpa using h))

/-! ## Base64 (RFC 4648, standard and URL-safe alphabets)

The Python code calls `base64.b64encode` / `base64.b64decode`
(standard alphabet, in `encrypt_data` / `decrypt_data`) and the Fernet
implementation calls `base64.urlsafe_b64encode` / `urlsafe_b64decode`.
Both operate on byte strings; we embed them as functions on `List Nat`.
The decoder is the strict inverse (it rejects bytes outside the
alphabet); every use in this development applies it to encoder output. -/

/-- One sextet (0..63) to its ASCII code under the standard alphabet. -/
def b64Byte (n : Nat) : Nat :=
  if n < 26 then 65 + n
  else if n < 52 then n + 71
  else if n < 62 then n - 4
  else if n = 62 then 43
  else 47

/-- One sextet (0..63) to its ASCII code under the URL-safe alphabet. -/
def b64UrlByte (n : Nat) : Nat :=
  if n < 26 then 65 + n
  else if n < 52 then n + 71
  else if n < 62 then n - 4
  else if n = 62 then 45
  else 95

/-- ASCII code back to its sextet under the standard alphabet. -/
def b64ByteVal (c : Nat) : Option Nat :=
  if 65 ≤ c ∧ c ≤ 90 then some (c - 65)
  else if 97 ≤ c ∧ c ≤ 122 then some (c - 71)
  else if 48 ≤ c ∧ c ≤ 57 then some (c + 4)
  else if c = 43 then some 62
  else if c = 47 then some 63
  else none

/-- ASCII code back to its sextet under the URL-safe alphabet. -/
def b64UrlByteVal (c : Nat) : Option Nat :=
  if 65 ≤ c ∧ c ≤ 90 then some (c - 65)
  else if 97 ≤ c ∧ c ≤ 122 then some (c - 71)
  else if 48 ≤ c ∧ c ≤ 57 then some (c + 4)
  else if c = 45 then some 62
  else if c = 95 then some 63
  else none

theorem b64ByteVal_b64Byte : ∀ n < 64, b64ByteVal (b64Byte n) = some n := by decide

theorem b64UrlByteVal_b64UrlByte : ∀ n < 64, b64UrlByteVal (b64UrlByte n) = some n := by
  decide

theorem b64Byte_lt (n : Nat) : b64Byte n < 256 := by
  unfold b64Byte; split <;> [omega; (split <;> [omega; (split <;> [omega; (split <;> omega)])])]

theorem b64UrlByte_lt (n : Nat) : b64UrlByte n < 256 := by
  unfold b64UrlByte; split <;> [omega; (split <;> [omega; (split <;> [omega; (split <;> omega)])])]

theorem b64Byte_ne_pad {n : Nat} (h : n < 64) : b64Byte n ≠ 61 := by
  revert n h; decide

theorem b64UrlByte_ne_pad {n : Nat} (h : n < 64) : b64UrlByte n ≠ 61 := by
  revert n h; decide

/-- Base64-encode a byte string with the given sextet-to-ASCII map
(61 is the ASCII pad byte `=`). -/
def b64EncodeWith (f : Nat → Nat) : List Nat → List Nat
  | [] => []
  | [a] => [f (a / 4), f (a % 4 * 16), 61, 61]
  | [a, b] => [f (a / 4), f (a % 4 * 16 + b / 16), f (b % 16 * 4), 61]
  | a :: b :: c :: rest =>
      f (a / 4) :: f (a % 4 * 16 + b / 16) :: f (b % 16 * 4 + c / 64) :: f (c % 64) ::
        b64EncodeWith f rest

/-- Base64-decode with the given ASCII-to-sextet map; strict inverse of
`b64EncodeWith` on well-formed input, `none` otherwise. -/
def b64DecodeWith (g : Nat → Option Nat) : List Nat → Option (List Nat)
  | [] => some []
  | c1 :: c2 :: c3 :: c4 :: rest =>
      match g c1, g c2 with
      | some s1, some s2 =>
          if c3 = 61 then
            if c4 = 61 ∧ rest = [] then some [s1 * 4 + s2 / 16] else none
          else
            match g c3 with
            | some s3 =>
                if c4 = 61 then
                  if rest = [] then some [s1 * 4 + s2 / 16, s2 % 16 * 16 + s3 / 4]
                  else none
                else
                  match g c4 with
                  | some s4 =>
                      (b64DecodeWith g rest).map
                        (fun tail =>
                          (s1 * 4 + s2 / 16) :: (s2 % 16 * 16 + s3 / 4) ::
                            (s3 % 4 * 64 + s4) :: tail)
                  | none => none
            | none => none
      | _, _ => none
  | _ => none

/-- `base64.b64encode` on bytes. -/
def b64Encode (l : List Nat) : List Nat := b64EncodeWith b64Byte l

/-- `base64.b64decode` on bytes (strict). -/
def b64Decode (l : List Nat) : Option (List Nat) := b64DecodeWith b64ByteVal l

/-- `base64.urlsafe_b64encode` on bytes. -/
def b64UrlEncode (l : List Nat) : List Nat := b64EncodeWith b64UrlByte l

/-- `base64.urlsafe_b64decode` on bytes (strict). -/
def b64UrlDecode (l : List Nat) : Option (List Nat) := b64DecodeWith b64UrlByteVal l

theorem b64EncodeWith_length (f : Nat → Nat) (l : List Nat) :
    (b64EncodeWith f l).length = (l.length + 2) / 3 * 4 := by
  induction l using b64EncodeWith.induct f with
  | case1 => simp [b64EncodeWith]
  | case2 a => simp [b64EncodeWith]
  | case3 a b => simp [b64EncodeWith]
  | case4 a b c rest ih =>
      simp only [b64EncodeWith, List.length_cons, ih]
      omega

theorem byteOk_b64EncodeWith (f : Nat → Nat) (hf : ∀ n, f n < 256) (l : List Nat) :
    ByteOk (b64EncodeWith f l) := by
  induction l using b64EncodeWith.induct f with
  | case1 => exact byteOk_nil
  | case2 a =>
      intro x hx
      simp only [b64EncodeWith, List.mem_cons] at hx
      rcases hx with rfl | rfl | rfl | rfl | h
      · exact hf _
      · exact hf _
      · omega
      · omega
      · cases h
  | case3 a b =>
      intro x hx
      simp only [b64EncodeWith, List.mem_cons] at hx
      rcases hx with rfl | rfl | rfl | rfl | h
      · exact hf _
      · exact hf _
      · exact hf _
      · omega
      · cases h
  | case4 a b c rest ih =>
      intro x hx
      simp only [b64EncodeWith, List.mem_cons] at hx
      rcases hx with rfl | rfl | rfl | rfl | h
      · exact hf _
      · exact hf _
      · exact hf _
      · exact hf _
      · exact ih x h

theorem b64DecodeWith_b64EncodeWith (f : Nat → Nat) (g : Nat → Option Nat)
    (hfg : ∀ n, n < 64 → g (f n) = some n) (hne : ∀ n, n < 64 → f n ≠ 61)
    (l : List Nat) :
    ByteOk l → b64DecodeWith g (b64EncodeWith f l) = some l := by
  induction l using b64EncodeWith.induct f with
  | case1 => intro _; rfl
  | case2 a =>
      intro hl
      have ha : a < 256 := hl a (by simp)
      simp only [b64EncodeWith, b64DecodeWith]
      rw [hfg (a / 4) (by omega), hfg (a % 4 * 16) (by omega)]
      simp
      omega
  | case3 a b =>
      intro hl
      have ha : a < 256 := hl a (by simp)
      have hb : b < 256 := hl b (by simp)
      simp only [b64EncodeWith, b64DecodeWith]
      rw [hfg (a / 4) (by omega), hfg (a % 4 * 16 + b / 16) (by omega),
        hfg (b % 16 * 4) (by omega)]
      simp [if_neg (hne (b % 16 * 4) (by omega))]
      omega
  | case4 a b c rest ih =>
      intro hl
      have ha : a < 256 := hl a (by simp)
      have hb : b < 256 := hl b (by simp)
      have hc : c < 256 := hl c (by simp)
      have hrest : ByteOk rest := fun u hu => hl u (by simp [hu])
      simp only [b64EncodeWith, b64DecodeWith]
      rw [hfg (a / 4) (by omega), hfg (a % 4 * 16 + b / 16) (by omega),
        hfg (b % 16 * 4 + c / 64) (by omega), hfg (c % 64) (by omega)]
      simp [if_neg (hne (b % 16 * 4 + c / 64) (by omega)),
        if_neg (hne (c % 64) (by omega)), ih hrest]
      omega

theorem b64Decode_b64Encode {l : List Nat} (hl : ByteOk l) :
    b64Decode (b64Encode l) = some l :=
  b64DecodeWith_b64EncodeWith b64Byte b64ByteVal
    (fun n hn => b64ByteVal_b64Byte n hn) (fun n hn => b64Byte_ne_pad hn) l hl

theorem b64UrlDecode_b64UrlEncode {l : List Nat} (hl : ByteOk l) :
    b64UrlDecode (b64UrlEncode l) = some l :=
  b64DecodeWith_b64EncodeWith b64UrlByte b64UrlByteVal
    (fun n hn => b64UrlByteVal_b64UrlByte n hn) (fun n hn => b64UrlByte_ne_pad hn) l hl

theorem byteOk_b64Encode (l : List Nat) : ByteOk (b64Encode l) :=
  byteOk_b64EncodeWith b64Byte b64Byte_lt l

theorem byteOk_b64UrlEncode (l : List Nat) : ByteOk (b64UrlEncode l) :=
  byteOk_b64EncodeWith b64UrlByte b64UrlByte_lt l

theorem b64Encode_length (l : List Nat) :
    (b64Encode l).length = (l.length + 2) / 3 * 4 :=
  b64EncodeWith_length b64Byte l

theorem b64UrlEncode_length (l : List Nat) :
    (b64UrlEncode l).length = (l.length + 2) / 3 * 4 :=
  b64EncodeWith_length b64UrlByte l

/-! ## PKCS#7 padding, block size 16 bytes

Embeds `cryptography.hazmat.primitives.padding.PKCS7(128)` as used by
Fernet: the padder always appends between 1 and 16 bytes, a full extra
block when the input is block-aligned; the unpadder rejects an empty or
non-block-aligned input and inconsistent padding bytes. -/

/-- PKCS#7-pad to a multiple of 16 bytes. -/
def padPKCS7 (l : List Nat) : List Nat :=
  l ++ List.replicate (16 - l.length % 16) (16 - l.length % 16)

/-- PKCS#7-unpad; `none` models the library's `ValueError: Invalid padding bytes`. -/
def unpadPKCS7 (l : List Nat) : Option (List Nat) :=
  if l.length = 0 ∨ l.length % 16 ≠ 0 then none
  else
    match l.getLast? with
    | none => none
    | some p =>
        if 1 ≤ p ∧ p ≤ 16 ∧ p ≤ l.length ∧ (l.drop (l.length - p)).all (· == p)
        then some (l.take (l.length - p))
        else none

theorem padPKCS7_length (l : List Nat) :
    (padPKCS7 l).length = l.length + (16 - l.length % 16) := by
  simp [padPKCS7]

theorem padPKCS7_length_mod (l : List Nat) : (padPKCS7 l).length % 16 = 0 := by
  rw [padPKCS7_length]; omega

theorem byteOk_padPKCS7 {l : List Nat} (hl : ByteOk l) : ByteOk (padPKCS7 l) :=
  byteOk_append hl (byteOk_replicate (by omega))

theorem unpadPKCS7_padPKCS7 (l : List Nat) : unpadPKCS7 (padPKCS7 l) = some l := by
  have hq1 : 1 ≤ 16 - l.length % 16 := by omega
  have hq2 : 16 - l.length % 16 ≤ 16 := by omega
  set q := 16 - l.length % 16 with hqdef
  have hrep : List.replicate q q = List.replicate (q - 1) q ++ [q] := by
    obtain ⟨n, hn⟩ : ∃ n, q = n + 1 := ⟨q - 1, by omega⟩
    nth_rewrite 1 [hn]
    rw [show q - 1 = n by omega]
    exact List.replicate_succ' n q
  have hsplit : padPKCS7 l = (l ++ List.replicate (q - 1) q) ++ [q] := by
    rw [padPKCS7, ← hqdef, hrep, ← List.append_assoc]
  have hlen : (padPKCS7 l).length = l.length + q := by rw [padPKCS7_length, ← hqdef]
  have hlast : (padPKCS7 l).getLast? = some q := by
    rw [hsplit, List.getLast?_append_cons]
    rfl
  have hsub : l.length + q - q = l.length := by omega
  have hdropQ : (padPKCS7 l).drop ((padPKCS7 l).length - q) = List.replicate q q := by
    rw [hlen, hsub, padPKCS7, ← hqdef, List.drop_left]
  have htakeQ : (padPKCS7 l).take ((padPKCS7 l).length - q) = l := by
    rw [hlen, hsub, padPKCS7, ← hqdef, List.take_left]
  have hall : ((padPKCS7 l).drop ((padPKCS7 l).length - q)).all (· == q) = true := by
    rw [hdropQ]
    simp [List.all_eq_true]
  rw [unpadPKCS7, if_neg (by rw [hlen]; omega), hlast]
  dsimp only
  rw [if_pos ⟨hq1, hq2, by rw [hlen]; omega, hall⟩, htakeQ]

/-! ## 16-byte block chunking and CBC mode -/

/-- Split a byte string into consecutive 16-byte blocks (last one possibly
shorter if the input is not aligned; all callers pass aligned input).
Structural recursion on a fuel bound so that it evaluates by kernel
reduction. -/
def toBlocksAux : Nat → List Nat → List (List Nat)
  | 0, _ => []
  | _, [] => []
  | fuel + 1, a :: as => (a :: as).take 16 :: toBlocksAux fuel ((a :: as).drop 16)

/-- Split a byte string into consecutive 16-byte blocks. -/
def toBlocks (l : List Nat) : List (List Nat) := toBlocksAux l.length l

theorem toBlocksAux_congr :
    ∀ (fuel1 fuel2 : Nat) (l : List Nat), l.length ≤ fuel1 → l.length ≤ fuel2 →
      toBlocksAux fuel1 l = toBlocksAux fuel2 l := by
  intro fuel1
  induction fuel1 with
  | zero =>
      intro fuel2 l h1 _
      have : l = [] := List.eq_nil_of_length_eq_zero (by omega)
      subst this
      cases fuel2 <;> rfl
  | succ n ih =>
      intro fuel2 l h1 h2
      cases l with
      | nil => cases fuel2 <;> rfl
      | cons a as =>
          cases fuel2 with
          | zero => simp at h2
          | succ m =>
              simp only [List.length_cons] at h1 h2
              simp only [toBlocksAux]
              rw [ih m ((a :: as).drop 16)
                (by simp [List.length_drop, List.length_cons]; omega)
                (by simp [List.length_drop, List.length_cons]; omega)]

theorem toBlocks_nil : toBlocks [] = [] := rfl

theorem toBlocks_cons_of_ne {l : List Nat} (h : l ≠ []) :
    toBlocks l = l.take 16 :: toBlocks (l.drop 16) := by
  cases l with
  | nil => exact absurd rfl h
  | cons a as =>
      show toBlocksAux (a :: as).length (a :: as) = _
      rw [List.length_cons, toBlocksAux]
      rw [toBlocksAux_congr as.length ((a :: as).drop 16).length ((a :: as).drop 16)
        (by simp only [List.length_drop, List.length_cons]; omega) (le_refl _)]
      rfl

theorem toBlocks_flatten {l : List Nat} : (toBlocks l).flatten = l := by
  suffices h : ∀ (fuel : Nat) (l : List Nat), l.length ≤ fuel →
      (toBlocksAux fuel l).flatten = l from h l.length l (le_refl _)
  intro fuel
  induction fuel with
  | zero =>
      intro l h1
      have : l = [] := List.eq_nil_of_length_eq_zero (by omega)
      subst this
      rfl
  | succ n ih =>
      intro l h1
      cases l with
      | nil => rfl
      | cons a as =>
          simp only [List.length_cons] at h1
          simp only [toBlocksAux, List.flatten_cons]
          rw [ih ((a :: as).drop 16)
            (by simp [List.length_drop, List.length_cons]; omega),
            List.take_append_drop]

theorem toBlocks_block_mem {l b : List Nat} (hl : l.length % 16 = 0)
    (hb : b ∈ toBlocks l) : b.length = 16 ∧ (ByteOk l → ByteOk b) := by
  suffices h : ∀ (fuel : Nat) (l b : List Nat), l.length ≤ fuel →
      l.length % 16 = 0 → b ∈ toBlocksAux fuel l →
      b.length = 16 ∧ (ByteOk l → ByteOk b) from
    h l.length l b (le_refl _) hl hb
  intro fuel
  induction fuel with
  | zero =>
      intro l b h1 _ hmem
      have : l = [] := List.eq_nil_of_length_eq_zero (by omega)
      subst this
      cases hmem
  | succ n ih =>
      intro l b h1 hmod hmem
      cases l with
      | nil => cases hmem
      | cons a as =>
          simp only [List.length_cons] at h1 hmod
          have hlen : 16 ≤ as.length + 1 := by omega
          simp only [toBlocksAux] at hmem
          rcases List.mem_cons.mp hmem with rfl | hmem
          · refine ⟨?_, fun hok => byteOk_take hok 16⟩
            simp [List.length_take, List.length_cons]
            omega
          · have hmod2 : ((a :: as).drop 16).length % 16 = 0 := by
              simp [List.length_drop, List.length_cons]
              omega
            rcases ih ((a :: as).drop 16) b
              (by simp [List.length_drop, List.length_cons]; omega)
              hmod2 hmem with ⟨hx1, hx2⟩
            exact ⟨hx1, fun hok => hx2 (byteOk_drop hok 16)⟩

theorem toBlocks_length {l : List Nat} (hl : l.length % 16 = 0) :
    (toBlocks l).length = l.length / 16 := by
  suffices h : ∀ (fuel : Nat) (l : List Nat), l.length ≤ fuel →
      l.length % 16 = 0 → (toBlocksAux fuel l).length = l.length / 16 from
    h l.length l (le_refl _) hl
  intro fuel
  induction fuel with
  | zero =>
      intro l h1 _
      have : l = [] := List.eq_nil_of_length_eq_zero (by omega)
      subst this
      rfl
  | succ n ih =>
      intro l h1 hmod
      cases l with
      | nil => rfl
      | cons a as =>
          simp only [List.length_cons] at h1 hmod
          have hlen : 16 ≤ as.length + 1 := by omega
          have hmod2 : ((a :: as).drop 16).length % 16 = 0 := by
            simp [List.length_drop, List.length_cons]
            omega
          simp only [toBlocksAux, List.length_cons]
          rw [ih ((a :: as).drop 16)
            (by simp [List.length_drop, List.length_cons]; omega) hmod2]
          simp [List.length_drop, List.length_cons]
          omega

theorem toBlocks_of_blocks {bs : List (List Nat)} (h : ∀ b ∈ bs, b.length = 16) :
    toBlocks bs.flatten = bs := by
  induction bs with
  | nil => simp [toBlocks_nil]
  | cons b bs ih =>
      have hb : b.length = 16 := h b (by simp)
      have hne : b ++ bs.flatten ≠ [] := by
        intro hz
        have hlz := congrArg List.length hz
        simp [hb] at hlz
      rw [List.flatten_cons, toBlocks_cons_of_ne hne]
      have htake : (b ++ bs.flatten).take 16 = b := by
        rw [← hb]
        exact List.take_left b bs.flatten
      have hdrop : (b ++ bs.flatten).drop 16 = bs.flatten := by
        rw [← hb]
        exact List.drop_left b bs.flatten
      rw [htake, hdrop, ih (fun x hx => h x (by simp [hx]))]

/-- CBC encryption over a list of plaintext blocks: each block is XORed
with the previous ciphertext block (initially the IV) and then passed to
the block cipher. -/
def cbcEncBlocks (E : List Nat → List Nat → List Nat) (k : List Nat) :
    List Nat → List (List Nat) → List (List Nat)
  | _, [] => []
  | prev, b :: bs =>
      E k (xorBytes prev b) :: cbcEncBlocks E k (E k (xorBytes prev b)) bs

/-- CBC decryption over a list of ciphertext blocks. -/
def cbcDecBlocks (D : List Nat → List Nat → List Nat) (k : List Nat) :
    List Nat → List (List Nat) → List (List Nat)
  | _, [] => []
  | prev, c :: cs => xorBytes prev (D k c) :: cbcDecBlocks D k c cs

/-- CBC-mode encryption of an aligned byte string. -/
def cbcEncrypt (E : List Nat → List Nat → List Nat) (k iv pt : List Nat) : List Nat :=
  (cbcEncBlocks E k iv (toBlocks pt)).flatten

/-- CBC-mode decryption; `none` models the library error on a ciphertext
that is not a whole number of blocks. -/
def cbcDecrypt (D : List Nat → List Nat → List Nat) (k iv ct : List Nat) :
    Option (List Nat) :=
  if ct.length % 16 = 0 then some ((cbcDecBlocks D k iv (toBlocks ct)).flatten)
  else none

theorem cbcEncBlocks_mem (E : List Nat → List Nat → List Nat) (k : List Nat)
    (hElen : ∀ b, b.length = 16 → (E k b).length = 16)
    (hEok : ∀ b, ByteOk b → ByteOk (E k b)) :
    ∀ (bs : List (List Nat)) (prev : List Nat), prev.length = 16 → ByteOk prev →
      (∀ b ∈ bs, b.length = 16 ∧ ByteOk b) →
      ∀ c ∈ cbcEncBlocks E k prev bs, c.length = 16 ∧ ByteOk c := by
  intro bs
  induction bs with
  | nil => intro prev _ _ _ c hc; cases hc
  | cons b bs ih =>
      intro prev hplen hpok hbs c hc
      obtain ⟨hblen, hbok⟩ := hbs b (by simp)
      have hxlen : (xorBytes prev b).length = 16 := by
        rw [xorBytes_length, hplen, hblen]
        simp
      have hxok : ByteOk (xorBytes prev b) := byteOk_xorBytes hpok hbok
      rcases List.mem_cons.mp hc with rfl | hc
      · exact ⟨hElen _ hxlen, hEok _ hxok⟩
      · exact ih (E k (xorBytes prev b)) (hElen _ hxlen) (hEok _ hxok)
          (fun x hx => hbs x (by simp [hx])) c hc

theorem cbcDecBlocks_cbcEncBlocks (E D : List Nat → List Nat → List Nat) (k : List Nat)
    (hED : ∀ b, b.length = 16 → ByteOk b → D k (E k b) = b)
    (hElen : ∀ b, b.length = 16 → (E k b).length = 16)
    (hEok : ∀ b, ByteOk b → ByteOk (E k b)) :
    ∀ (bs : List (List Nat)) (prev : List Nat), prev.length = 16 → ByteOk prev →
      (∀ b ∈ bs, b.length = 16 ∧ ByteOk b) →
      cbcDecBlocks D k prev (cbcEncBlocks E k prev bs) = bs := by
  intro bs
  induction bs with
  | nil => intro prev _ _ _; rfl
  | cons b bs ih =>
      intro prev hplen hpok hbs
      obtain ⟨hblen, hbok⟩ := hbs b (by simp)
      have hxlen : (xorBytes prev b).length = 16 := by
        rw [xorBytes_length, hplen, hblen]
        simp
      have hxok : ByteOk (xorBytes prev b) := byteOk_xorBytes hpok hbok
      simp only [cbcEncBlocks, cbcDecBlocks]
      rw [hED _ hxlen hxok, xorBytes_cancel_left (by rw [hplen, hblen])]
      rw [ih (E k (xorBytes prev b)) (hElen _ hxlen) (hEok _ hxok)
        (fun x hx => hbs x (by simp [hx]))]

theorem cbcEncBlocks_length (E : List Nat → List Nat → List Nat) (k : List Nat) :
    ∀ (bs : List (List Nat)) (prev : List Nat),
      (cbcEncBlocks E k prev bs).length = bs.length := by
  intro bs
  induction bs with
  | nil => intro prev; rfl
  | cons b bs ih =>
      intro prev
      simp only [cbcEncBlocks, List.length_cons, ih]

theorem flatten_length_of_blocks {bs : List (List Nat)}
    (h : ∀ b ∈ bs, b.length = 16) : bs.flatten.length = 16 * bs.length := by
  induction bs with
  | nil => simp
  | cons b bs ih =>
      rw [List.flatten_cons, List.length_append, h b (by simp),
        ih (fun x hx => h x (by simp [hx])), List.length_cons]
      ring

theorem cbcEncrypt_length (E : List Nat → List Nat → List Nat) (k iv pt : List Nat)
    (hElen : ∀ b, b.length = 16 → (E k b).length = 16)
    (hEok : ∀ b, ByteOk b → ByteOk (E k b))
    (hiv : iv.length = 16) (hivok : ByteOk iv)
    (hpt : pt.length % 16 = 0) (hptok : ByteOk pt) :
    (cbcEncrypt E k iv pt).length = pt.length := by
  have hmem := cbcEncBlocks_mem E k hElen hEok (toBlocks pt) iv hiv hivok
    (fun b hb =>
      ⟨(toBlocks_block_mem hpt hb).1, (toBlocks_block_mem hpt hb).2 hptok⟩)
  rw [cbcEncrypt, flatten_length_of_blocks (fun b hb => (hmem b hb).1),
    cbcEncBlocks_length, toBlocks_length hpt]
  omega

theorem byteOk_cbcEncrypt (E : List Nat → List Nat → List Nat) (k iv pt : List Nat)
    (hElen : ∀ b, b.length = 16 → (E k b).length = 16)
    (hEok : ∀ b, ByteOk b → ByteOk (E k b))
    (hiv : iv.length = 16) (hivok : ByteOk iv)
    (hpt : pt.length % 16 = 0) (hptok : ByteOk pt) :
    ByteOk (cbcEncrypt E k iv pt) := by
  have hmem := cbcEncBlocks_mem E k hElen hEok (toBlocks pt) iv hiv hivok
    (fun b hb =>
      ⟨(toBlocks_block_mem hpt hb).1, (toBlocks_block_mem hpt hb).2 hptok⟩)
  intro x hx
  rcases List.mem_flatten.mp hx with ⟨b, hb, hxb⟩
  exact (hmem b hb).2 x hxb

theorem cbcDecrypt_cbcEncrypt (E D : List Nat → List Nat → List Nat) (k iv pt : List Nat)
    (hED : ∀ b, b.length = 16 → ByteOk b → D k (E k b) = b)
    (hElen : ∀ b, b.length = 16 → (E k b).length = 16)
    (hEok : ∀ b, ByteOk b → ByteOk (E k b))
    (hiv : iv.length = 16) (hivok : ByteOk iv)
    (hpt : pt.length % 16 = 0) (hptok : ByteOk pt) :
    cbcDecrypt D k iv (cbcEncrypt E k iv pt) = some pt := by
  have hblocks : ∀ b ∈ toBlocks pt, b.length = 16 ∧ ByteOk b := fun b hb =>
    ⟨(toBlocks_block_mem hpt hb).1, (toBlocks_block_mem hpt hb).2 hptok⟩
  have hmem := cbcEncBlocks_mem E k hElen hEok (toBlocks pt) iv hiv hivok hblocks
  have hctlen : (cbcEncrypt E k iv pt).length = pt.length :=
    cbcEncrypt_length E k iv pt hElen hEok hiv hivok hpt hptok
  rw [cbcDecrypt, if_pos (by rw [hctlen]; exact hpt), cbcEncrypt,
    toBlocks_of_blocks (fun b hb => (hmem b hb).1),
    cbcDecBlocks_cbcEncBlocks E D k hED hElen hEok (toBlocks pt) iv hiv hivok hblocks,
    toBlocks_flatten]

/-! ## Fernet (`cryptography.fernet`), as used by `security/encryption.py`

`EncryptionManager` wraps a `Fernet` cipher whose key is the 32-byte
urlsafe-base64-decoded key-file content: the first 16 bytes sign (HMAC),
the last 16 encrypt (AES-128-CBC).  A token is
`0x80 || timestamp(8B, big-endian) || IV(16B) || ciphertext || HMAC(32B)`
with the HMAC computed over everything before it, the whole token
urlsafe-base64-encoded.  The AES block permutation and HMAC-SHA256 are
external primitives, embedded as parameters with their library
contracts; the fresh random IV (`os.urandom(16)`) and the clock are
likewise external and passed as explicit arguments. -/

/-- The external cryptographic primitives Fernet builds on. -/
structure FernetPrims where
  blockEnc : List Nat → List Nat → List Nat
  blockDec : List Nat → List Nat → List Nat
  hmacSha256 : List Nat → List Nat → List Nat

/-- Library contract of the primitives: the block cipher is a
length-preserving, byte-valued permutation on 16-byte blocks for each key,
and the MAC is a 32-byte byte-valued digest. -/
structure FernetPrimsOk (P : FernetPrims) : Prop where
  dec_enc : ∀ k b, ByteOk k → b.length = 16 → ByteOk b →
    P.blockDec k (P.blockEnc k b) = b
  enc_len : ∀ k b, b.length = 16 → (P.blockEnc k b).length = 16
  enc_ok : ∀ k b, ByteOk k → ByteOk b → ByteOk (P.blockEnc k b)
  mac_len : ∀ k m, (P.hmacSha256 k m).length = 32
  mac_ok : ∀ k m, ByteOk m → ByteOk (P.hmacSha256 k m)

/-- Fernet signing key: first half of the 32-byte key. -/
def fernetSigningKey (key : List Nat) : List Nat := key.take 16

/-- Fernet encryption key: second half of the 32-byte key. -/
def fernetEncKey (key : List Nat) : List Nat := key.drop 16

/-- CBC ciphertext of the PKCS#7-padded plaintext under the encryption
half of the key. -/
def fernetCiphertext (P : FernetPrims) (key iv pt : List Nat) : List Nat :=
  cbcEncrypt P.blockEnc (fernetEncKey key) iv (padPKCS7 pt)

/-- `basic_parts`: version byte, timestamp bytes, IV, ciphertext. -/
def fernetBasicParts (P : FernetPrims) (key ts iv pt : List Nat) : List Nat :=
  [128] ++ ts ++ iv ++ fernetCiphertext P key iv pt

/-- Raw token bytes: `basic_parts` followed by their HMAC. -/
def fernetTokenBytes (P : FernetPrims) (key ts iv pt : List Nat) : List Nat :=
  fernetBasicParts P key ts iv pt ++
    P.hmacSha256 (fernetSigningKey key) (fernetBasicParts P key ts iv pt)

/-- `Fernet.encrypt` / `EncryptionManager.encrypt` on bytes: the
urlsafe-base64-encoded token. -/
def fernetEncrypt (P : FernetPrims) (key ts iv pt : List Nat) : List Nat :=
  b64UrlEncode (fernetTokenBytes P key ts iv pt)

/-- The typed error raised by `Fernet.decrypt`
(`cryptography.fernet.InvalidToken`), propagated unchanged by
`EncryptionManager.decrypt`. -/
inductive FernetError where
  | invalidToken
deriving DecidableEq, Repr

/-- `Fernet.decrypt` on already-base64-decoded token bytes: version
check, HMAC verification over all but the trailing 32 bytes, CBC
decryption, PKCS#7 unpadding; every failure is `InvalidToken`. -/
def fernetDecryptToken (P : FernetPrims) (key data : List Nat) :
    Except FernetError (List Nat) :=
  if data.length < 9 then .error .invalidToken
  else if data.headD 0 ≠ 128 then .error .invalidToken
  else if P.hmacSha256 (fernetSigningKey key) (data.take (data.length - 32)) ≠
      data.drop (data.length - 32) then .error .invalidToken
  else
    match cbcDecrypt P.blockDec (fernetEncKey key) ((data.drop 9).take 16)
        ((data.drop 25).take (data.length - 57)) with
    | none => .error .invalidToken
    | some padded =>
        match unpadPKCS7 padded with
        | none => .error .invalidToken
        | some pt => .ok pt

/-- `Fernet.decrypt` / `EncryptionManager.decrypt` on a token: either the
plaintext bytes or the typed `InvalidToken` error. -/
def fernetDecrypt (P : FernetPrims) (key token : List Nat) :
    Except FernetError (List Nat) :=
  match b64UrlDecode token with
  | none => .error .invalidToken
  | some data => fernetDecryptToken P key data

/-- `encrypt_data` (module-level helper in `security/encryption.py`):
encrypt with the manager for the given key file, then base64-encode the
token once more with the standard alphabet. -/
def encryptData (P : FernetPrims) (key ts iv pt : List Nat) : List Nat :=
  b64Encode (fernetEncrypt P key ts iv pt)

/-- `decrypt_data` (module-level helper): base64-decode, decrypt with the
manager; any exception is caught and turned into `None`. -/
def decryptData (P : FernetPrims) (key frame : List Nat) : Option (List Nat) :=
  match b64Decode frame with
  | none => none
  | some token =>
      match fernetDecrypt P key token with
      | .error _ => none
      | .ok pt => some pt

section FernetRoundTrip

variable {P : FernetPrims} {key ts iv pt : List Nat}

theorem fernetCiphertext_length (hP : FernetPrimsOk P) (hkok : ByteOk key)
    (hiv : iv.length = 16) (hivok : ByteOk iv) (hptok : ByteOk pt) :
    (fernetCiphertext P key iv pt).length = (padPKCS7 pt).length :=
  cbcEncrypt_length P.blockEnc (fernetEncKey key) iv (padPKCS7 pt)
    (fun b hb => hP.enc_len _ b hb)
    (fun b hb => hP.enc_ok _ b (byteOk_drop hkok 16) hb)
    hiv hivok (padPKCS7_length_mod pt) (byteOk_padPKCS7 hptok)

theorem byteOk_fernetCiphertext (hP : FernetPrimsOk P) (hkok : ByteOk key)
    (hiv : iv.length = 16) (hivok : ByteOk iv) (hptok : ByteOk pt) :
    ByteOk (fernetCiphertext P key iv pt) :=
  byteOk_cbcEncrypt P.blockEnc (fernetEncKey key) iv (padPKCS7 pt)
    (fun b hb => hP.enc_len _ b hb)
    (fun b hb => hP.enc_ok _ b (byteOk_drop hkok 16) hb)
    hiv hivok (padPKCS7_length_mod pt) (byteOk_padPKCS7 hptok)

theorem byteOk_fernetBasicParts (hP : FernetPrimsOk P) (hkok : ByteOk key)
    (htsok : ByteOk ts) (hiv : iv.length = 16) (hivok : ByteOk iv)
    (hptok : ByteOk pt) : ByteOk (fernetBasicParts P key ts iv pt) := by
  refine byteOk_append (byteOk_append (byteOk_append ?_ htsok) hivok)
    (byteOk_fernetCiphertext hP hkok hiv hivok hptok)
  intro b hb
  rcases List.mem_singleton.mp hb with rfl
  omega

theorem byteOk_fernetTokenBytes (hP : FernetPrimsOk P) (hkok : ByteOk key)
    (htsok : ByteOk ts) (hiv : iv.length = 16) (hivok : ByteOk iv)
    (hptok : ByteOk pt) : ByteOk (fernetTokenBytes P key ts iv pt) :=
  byteOk_append (byteOk_fernetBasicParts hP hkok htsok hiv hivok hptok)
    (hP.mac_ok _ _ (byteOk_fernetBasicParts hP hkok htsok hiv hivok hptok))

theorem fernetBasicParts_length (hP : FernetPrimsOk P) (hkok : ByteOk key)
    (hts : ts.length = 8) (hiv : iv.length = 16) (hivok : ByteOk iv)
    (hptok : ByteOk pt) :
    (fernetBasicParts P key ts iv pt).length = 25 + (padPKCS7 pt).length := by
  simp [fernetBasicParts, hts, hiv,
    fernetCiphertext_length hP hkok hiv hivok hptok]
  omega

theorem fernetTokenBytes_length (hP : FernetPrimsOk P) (hkok : ByteOk key)
    (hts : ts.length = 8) (hiv : iv.length = 16) (hivok : ByteOk iv)
    (hptok : ByteOk pt) :
    (fernetTokenBytes P key ts iv pt).length = 57 + (padPKCS7 pt).length := by
  rw [fernetTokenBytes, List.length_append,
    fernetBasicParts_length hP hkok hts hiv hivok hptok, hP.mac_len]
  omega

/-- Core Fernet round trip: decrypting an encrypted token with the same
key recovers the plaintext. -/
theorem fernetDecrypt_fernetEncrypt (hP : FernetPrimsOk P)
    (hkok : ByteOk key) (hts : ts.length = 8) (htsok : ByteOk ts)
    (hiv : iv.length = 16) (hivok : ByteOk iv) (hptok : ByteOk pt) :
    fernetDecrypt P key (fernetEncrypt P key ts iv pt) = .ok pt := by
  have hTok : ByteOk (fernetTokenBytes P key ts iv pt) :=
    byteOk_fernetTokenBytes hP hkok htsok hiv hivok hptok
  rw [fernetDecrypt, fernetEncrypt, b64UrlDecode_b64UrlEncode hTok]
  show fernetDecryptToken P key (fernetTokenBytes P key ts iv pt) = Except.ok pt
  set T := fernetTokenBytes P key ts iv pt with hTdef
  set B := fernetBasicParts P key ts iv pt with hBdef
  set ct := fernetCiphertext P key iv pt with hctdef
  set mac := P.hmacSha256 (fernetSigningKey key) B with hmacdef
  have hmaclen : mac.length = 32 := hP.mac_len _ _
  have hBlen : B.length = 25 + (padPKCS7 pt).length :=
    fernetBasicParts_length hP hkok hts hiv hivok hptok
  have hTlen : T.length = 57 + (padPKCS7 pt).length :=
    fernetTokenBytes_length hP hkok hts hiv hivok hptok
  have hctlen : ct.length = (padPKCS7 pt).length :=
    fernetCiphertext_length hP hkok hiv hivok hptok
  have hTB : T = B ++ mac := by rw [hTdef, fernetTokenBytes]
  have hhead : T.headD 0 = 128 := by
    rw [hTB, hBdef, fernetBasicParts]
    rfl
  have hTake : T.take (T.length - 32) = B := by
    rw [hTB]
    refine List.take_left' ?_
    rw [← hTB, hTlen, hBlen]
    omega
  have hDrop : T.drop (T.length - 32) = mac := by
    rw [hTB]
    refine List.drop_left' ?_
    rw [← hTB, hTlen, hBlen]
    omega
  have hT1 : T = ([128] ++ ts) ++ (iv ++ (ct ++ mac)) := by
    rw [hTB, hBdef, fernetBasicParts, ← hctdef]
    simp [List.append_assoc]
  have hIvX : (T.drop 9).take 16 = iv := by
    rw [hT1, List.drop_left' (by simp [hts]), List.take_left' hiv]
  have hT2 : T = (([128] ++ ts) ++ iv) ++ (ct ++ mac) := by
    rw [hT1]
    simp [List.append_assoc]
  have hCtX : (T.drop 25).take (T.length - 57) = ct := by
    rw [hT2, List.drop_left' (by simp [hts, hiv])]
    have hn : T.length - 57 = ct.length := by rw [hTlen, hctlen]; omega
    rw [← hT2, hn, List.take_left]
  unfold fernetDecryptToken
  rw [if_neg (by rw [hTlen]; omega),
    if_neg (by rw [hhead]; exact fun h => h rfl),
    if_neg (by rw [hTake, hDrop]; exact fun h => h rfl), hIvX, hCtX, hctdef,
    fernetCiphertext,
    cbcDecrypt_cbcEncrypt P.blockEnc P.blockDec (fernetEncKey key) iv (padPKCS7 pt)
      (fun b hb hbok => hP.dec_enc _ b (byteOk_drop hkok 16) hb hbok)
      (fun b hb => hP.enc_len _ b hb)
      (fun b hb => hP.enc_ok _ b (byteOk_drop hkok 16) hb)
      hiv hivok (padPKCS7_length_mod pt) (byteOk_padPKCS7 hptok)]
  simp [unpadPKCS7_padPKCS7]

end FernetRoundTrip

theorem xorBytes_cancel_right {a b : List Nat} (h : a.length = b.length) :
    xorBytes (xorBytes a b) b = a := by
  induction a generalizing b with
  | nil => cases b with
    | nil => rfl
    | cons x xs => simp at h
  | cons x xs ih =>
    cases b with
    | nil => simp at h
    | cons y ys =>
      simp only [xorBytes, List.zipWith_cons_cons]
      have hx : Nat.xor (Nat.xor x y) y = x := Nat.xor_cancel_right y x
      rw [hx]
      exact congrArg (List.cons x) (ih (by simpa using h))

instance (l : List Nat) : Decidable (ByteOk l) :=
  inferInstanceAs (Decidable (∀ b ∈ l, b < 256))

/-- A simple concrete instantiation of the external primitives, used to
exercise the parameterized theorems on concrete inputs: the block cipher
XORs the block with the first 16 bytes of the (zero-padded) key, and the
digest is the first 32 bytes of the zero-padded message.  These are not
AES/HMAC-SHA256 — the theorems hold for any primitives satisfying the
library contract `FernetPrimsOk`, which these do. -/
def testPrims : FernetPrims where
  blockEnc k b := xorBytes b ((k ++ List.replicate 16 0).take 16)
  blockDec k b := xorBytes b ((k ++ List.replicate 16 0).take 16)
  hmacSha256 _ m := (m ++ List.replicate 32 0).take 32

theorem testPrims_key_len (k : List Nat) :
    ((k ++ List.replicate 16 0).take 16).length = 16 := by
  simp [List.length_take, List.length_append]

theorem testPrimsOk : FernetPrimsOk testPrims := by
  constructor
  · intro k b _ hb _
    exact xorBytes_cancel_right (by rw [hb, testPrims_key_len])
  · intro k b hb
    simp [testPrims, xorBytes_length, hb, testPrims_key_len]
  · intro k b hk hb
    exact byteOk_xorBytes hb
      (byteOk_take (byteOk_append hk (byteOk_replicate (by omega))) 16)
  · intro k m
    simp [testPrims, List.length_take, List.length_append]
  · intro k m hm
    exact byteOk_take (byteOk_append hm (byteOk_replicate (by omega))) 32

/-- C2: for every byte payload of length 0 to 10,000 and every valid
32-byte key, decoding an encoded frame with the same key returns the
original payload: `decrypt_data (encrypt_data payload key) key = payload`.
The fresh IV and the 8-byte timestamp that `Fernet.encrypt` draws from
`os.urandom` and the clock are explicit arguments; the claim holds for
all of them, and for every block cipher and MAC satisfying the
`cryptography` library contract. -/
theorem C2_codec_round_trip (P : FernetPrims) (key ts iv pt : List Nat)
    (hP : FernetPrimsOk P) (hkey : key.length = 32) (hkok : ByteOk key)
    (hts : ts.length = 8) (htsok : ByteOk ts)
    (hiv : iv.length = 16) (hivok : ByteOk iv)
    (hptok : ByteOk pt) (hptlen : pt.length ≤ 10000) :
    decryptData P key (encryptData P key ts iv pt) = some pt := by
  have hdec : b64Decode (b64Encode (fernetEncrypt P key ts iv pt)) =
      some (fernetEncrypt P key ts iv pt) :=
    b64Decode_b64Encode (by rw [fernetEncrypt]; exact byteOk_b64UrlEncode _)
  simp only [decryptData, encryptData, hdec,
    fernetDecrypt_fernetEncrypt hP hkok hts htsok hiv hivok hptok]

/-- Witness for C2: the round trip evaluated at a concrete payload, key,
timestamp and IV, with the concrete test primitives. -/
theorem C2_codec_round_trip_witness :
    decryptData testPrims (List.range 32)
      (encryptData testPrims (List.range 32) (List.replicate 8 1)
        (List.range 16) [104, 101, 108, 108, 111]) =
      some [104, 101, 108, 108, 111] :=
  C2_codec_round_trip testPrims (List.range 32) (List.replicate 8 1)
    (List.range 16) [104, 101, 108, 108, 111] testPrimsOk (by decide) (by decide)
    (by decide) (by decide) (by decide) (by decide) (by decide) (by decide)

/-! ## The spec's SecureFrameCodec (§4.4)

The specification describes the fallback wire framing as
`base64( IV(16B) || HMAC-SHA256(32B) || AES-256-CBC-ciphertext )` with the
MAC computed over `IV || ciphertext` under the single 32-byte key.  This
definition follows the spec's words; it serves two roles: the claimed
wire format to compare against the code's actual `encrypt_data`, and the
model of the fallback-path framing of `LoRaCrashTX.send_payload`, whose
definition is not present under `src/` (only its caller in `main.py` is). -/
def specCodecEncode (P : FernetPrims) (key iv pt : List Nat) : List Nat :=
  b64Encode
    (iv ++ P.hmacSha256 key (iv ++ cbcEncrypt P.blockEnc key iv (padPKCS7 pt)) ++
      cbcEncrypt P.blockEnc key iv (padPKCS7 pt))

set_option maxRecDepth 4000 in
/-- C3 counterexample: at a concrete key, timestamp, IV and the empty
plaintext (with the concrete test primitives standing in for the cipher
and MAC), the frame produced by `encrypt_data` is not the base64 encoding
of `IV || MAC || ciphertext`: the code emits the doubly-base64-encoded
Fernet token (version and timestamp header, MAC trailing, 136 characters)
while the claimed format is 88 characters. -/
theorem C3_wire_format_counterexample :
    (encryptData testPrims (List.range 32) (List.replicate 8 1)
        (List.range 16) []).length = 136 ∧
    (specCodecEncode testPrims (List.range 32) (List.range 16) []).length = 88 ∧
    encryptData testPrims (List.range 32) (List.replicate 8 1)
        (List.range 16) [] ≠
      specCodecEncode testPrims (List.range 32) (List.range 16) [] := by
  refine ⟨by decide, by decide, by decide⟩

/-- C3 (amended): for every plaintext and key (and every IV and timestamp
drawn by the library), the encoded fallback frame is the *standard*
base64 encoding of the *urlsafe* base64 encoding of the Fernet token
`0x80 || timestamp(8B) || IV(16B) || AES-128-CBC ciphertext || HMAC-SHA256
MAC(32B)`: the version/timestamp header comes first, the 32-byte MAC is
computed over everything before it and placed at the end (not between IV
and ciphertext), the cipher runs under the last 16 bytes of the key with
the first 16 reserved for the MAC, and the encoding is applied twice —
not the spec's single `base64(IV || MAC || ciphertext)` layout. -/
theorem C3_wire_format_amended (P : FernetPrims) (key ts iv pt : List Nat)
    (hP : FernetPrimsOk P) (hkey : key.length = 32) (hkok : ByteOk key)
    (hts : ts.length = 8) (htsok : ByteOk ts)
    (hiv : iv.length = 16) (hivok : ByteOk iv) (hptok : ByteOk pt) :
    encryptData P key ts iv pt =
      b64Encode (b64UrlEncode (fernetTokenBytes P key ts iv pt)) ∧
    (fernetTokenBytes P key ts iv pt).length = 57 + (padPKCS7 pt).length ∧
    (fernetTokenBytes P key ts iv pt).take 1 = [128] ∧
    ((fernetTokenBytes P key ts iv pt).drop 1).take 8 = ts ∧
    ((fernetTokenBytes P key ts iv pt).drop 9).take 16 = iv ∧
    ((fernetTokenBytes P key ts iv pt).drop 25).take
        ((fernetTokenBytes P key ts iv pt).length - 57) =
      cbcEncrypt P.blockEnc (key.drop 16) iv (padPKCS7 pt) ∧
    (fernetTokenBytes P key ts iv pt).drop
        ((fernetTokenBytes P key ts iv pt).length - 32) =
      P.hmacSha256 (key.take 16)
        ((fernetTokenBytes P key ts iv pt).take
          ((fernetTokenBytes P key ts iv pt).length - 32)) := by
  set T := fernetTokenBytes P key ts iv pt with hTdef
  set B := fernetBasicParts P key ts iv pt with hBdef
  set ct := fernetCiphertext P key iv pt with hctdef
  set mac := P.hmacSha256 (fernetSigningKey key) B with hmacdef
  have hmaclen : mac.length = 32 := hP.mac_len _ _
  have hBlen : B.length = 25 + (padPKCS7 pt).length :=
    fernetBasicParts_length hP hkok hts hiv hivok hptok
  have hTlen : T.length = 57 + (padPKCS7 pt).length :=
    fernetTokenBytes_length hP hkok hts hiv hivok hptok
  have hctlen : ct.length = (padPKCS7 pt).length :=
    fernetCiphertext_length hP hkok hiv hivok hptok
  have hTB : T = B ++ mac := by rw [hTdef, fernetTokenBytes]
  have hTake : T.take (T.length - 32) = B := by
    rw [hTB]
    refine List.take_left' ?_
    rw [← hTB, hTlen, hBlen]
    omega
  have hDrop : T.drop (T.length - 32) = mac := by
    rw [hTB]
    refine List.drop_left' ?_
    rw [← hTB, hTlen, hBlen]
    omega
  have hT0 : T = [128] ++ (ts ++ (iv ++ (ct ++ mac))) := by
    rw [hTB, hBdef, fernetBasicParts, ← hctdef]
    simp [List.append_assoc]
  have hT1 : T = ([128] ++ ts) ++ (iv ++ (ct ++ mac)) := by
    rw [hT0]
    simp [List.append_assoc]
  have hT2 : T = (([128] ++ ts) ++ iv) ++ (ct ++ mac) := by
    rw [hT0]
    simp [List.append_assoc]
  refine ⟨rfl, hTlen, ?_, ?_, ?_, ?_, ?_⟩
  · rw [hT0]
    exact List.take_left' (show ([128] : List Nat).length = 1 by simp)
  · rw [hT0, List.drop_left' (show ([128] : List Nat).length = 1 by simp),
      List.take_left' hts]
  · rw [hT1, List.drop_left' (by simp [hts]), List.take_left' hiv]
  · rw [hT2, List.drop_left' (by simp [hts, hiv])]
    have hn : T.length - 57 = ct.length := by rw [hTlen, hctlen]; omega
    rw [← hT2, hn, List.take_left]
    rw [hctdef, fernetCiphertext, fernetEncKey]
  · rw [hTake, hDrop, hmacdef, fernetSigningKey]

/-- Witness for the amended C3 wire-format theorem at a concrete key,
timestamp, IV and plaintext with the concrete test primitives. -/
theorem C3_wire_format_amended_witness :
    encryptData testPrims (List.range 32) (List.replicate 8 1) (List.range 16)
        [104, 105] =
      b64Encode (b64UrlEncode (fernetTokenBytes testPrims (List.range 32)
        (List.replicate 8 1) (List.range 16) [104, 105])) ∧
    (fernetTokenBytes testPrims (List.range 32) (List.replicate 8 1)
        (List.range 16) [104, 105]).length = 57 + 16 :=
  have h := C3_wire_format_amended testPrims (List.range 32)
    (List.replicate 8 1) (List.range 16) [104, 105] testPrimsOk (by decide)
    (by decide) (by decide) (by decide) (by decide) (by decide) (by decide)
  ⟨h.1, by rw [h.2.1]; rfl⟩

/-! ## Tampering with an encoded frame -/

/-- Flip bit `bit` (0..7) of the byte at index `i` of a byte string. -/
def flipBit (l : List Nat) (i bit : Nat) : List Nat :=
  l.set i (l.getD i 0 ^^^ 2 ^ bit)

theorem flipBit_length (l : List Nat) (i bit : Nat) :
    (flipBit l i bit).length = l.length := List.length_set l i _

theorem two_pow_lt_256 {bit : Nat} (hbit : bit < 8) : 2 ^ bit < 256 := by
  have h : 2 ^ bit ≤ 2 ^ 7 := Nat.pow_le_pow_right (by norm_num) (by omega)
  omega

theorem byteOk_flipBit {l : List Nat} (hl : ByteOk l) {i bit : Nat} (hbit : bit < 8) :
    ByteOk (flipBit l i bit) := by
  intro x hx
  rcases List.mem_or_eq_of_mem_set hx with h | rfl
  · exact hl x h
  · have hd : l.getD i 0 < 256 := by
      by_cases hi : i < l.length
      · rw [List.getD_eq_getElem l 0 hi]
        exact hl _ (List.getElem_mem hi)
      · rw [List.getD_eq_default l 0 (by omega)]
        omega
    exact xor_byte_lt hd (two_pow_lt_256 hbit)

theorem headD_set_of_ne {l : List Nat} {i : Nat} (h : i ≠ 0) (v d : Nat) :
    (l.set i v).headD d = l.headD d := by
  cases l with
  | nil => rfl
  | cons a as =>
      cases i with
      | zero => exact absurd rfl h
      | succ j => rfl

/-- C7: tampering with any single bit of the ciphertext or MAC region of
an encoded frame makes decoding fail with the typed authentication error
`InvalidToken` at the `EncryptionManager.decrypt` layer, and makes the
module-level `decrypt_data` return `None`; altered plaintext is never
returned.  A flip inside the stored MAC (the trailing 32 bytes) fails
unconditionally; a flip inside the ciphertext fails provided the keyed
digest of the modified frame differs from the stored digest (the standard
HMAC-SHA256 collision-resistance assumption, the right disjunct of
`hauth`). -/
theorem C7_tamper_detection (P : FernetPrims) (key ts iv pt : List Nat)
    (i bit : Nat) (hP : FernetPrimsOk P) (hkok : ByteOk key)
    (hts : ts.length = 8) (htsok : ByteOk ts)
    (hiv : iv.length = 16) (hivok : ByteOk iv) (hptok : ByteOk pt)
    (hlo : 25 ≤ i) (hhi : i < (fernetTokenBytes P key ts iv pt).length)
    (hbit : bit < 8)
    (hauth : (fernetTokenBytes P key ts iv pt).length - 32 ≤ i ∨
      P.hmacSha256 (key.take 16)
          ((flipBit (fernetTokenBytes P key ts iv pt) i bit).take
            ((fernetTokenBytes P key ts iv pt).length - 32)) ≠
        (flipBit (fernetTokenBytes P key ts iv pt) i bit).drop
          ((fernetTokenBytes P key ts iv pt).length - 32)) :
    fernetDecrypt P key
        (b64UrlEncode (flipBit (fernetTokenBytes P key ts iv pt) i bit)) =
      .error .invalidToken ∧
    decryptData P key
        (b64Encode (b64UrlEncode (flipBit (fernetTokenBytes P key ts iv pt) i bit))) =
      none := by
  set T := fernetTokenBytes P key ts iv pt with hTdef
  set B := fernetBasicParts P key ts iv pt with hBdef
  set ct := fernetCiphertext P key iv pt with hctdef
  set mac := P.hmacSha256 (fernetSigningKey key) B with hmacdef
  have hmaclen : mac.length = 32 := hP.mac_len _ _
  have hBlen : B.length = 25 + (padPKCS7 pt).length :=
    fernetBasicParts_length hP hkok hts hiv hivok hptok
  have hTlen : T.length = 57 + (padPKCS7 pt).length :=
    fernetTokenBytes_length hP hkok hts hiv hivok hptok
  have hTB : T = B ++ mac := by rw [hTdef, fernetTokenBytes]
  have hTake : T.take (T.length - 32) = B := by
    rw [hTB]
    refine List.take_left' ?_
    rw [← hTB, hTlen, hBlen]
    omega
  have hDrop : T.drop (T.length - 32) = mac := by
    rw [hTB]
    refine List.drop_left' ?_
    rw [← hTB, hTlen, hBlen]
    omega
  have hTok : ByteOk T := byteOk_fernetTokenBytes hP hkok htsok hiv hivok hptok
  set T2 := flipBit T i bit with hT2def
  have hlen2 : T2.length = T.length := flipBit_length T i bit
  have hok2 : ByteOk T2 := byteOk_flipBit hTok hbit
  have hhead : T2.headD 0 = 128 := by
    rw [hT2def, flipBit, headD_set_of_ne (by omega), hTB, hBdef, fernetBasicParts]
    rfl
  have hcond : P.hmacSha256 (fernetSigningKey key) (T2.take (T2.length - 32)) ≠
      T2.drop (T2.length - 32) := by
    rw [hlen2]
    rcases hauth with hreg | hne
    · have hjB : B.length ≤ i := by rw [hBlen]; rw [hTlen] at hreg; omega
      have hTtake : T2.take (T.length - 32) = B := by
        rw [hT2def, flipBit, List.set_take, hTake, List.set_eq_of_length_le hjB]
      have hTdrop : T2.drop (T.length - 32) =
          mac.set (i - (T.length - 32)) (T.getD i 0 ^^^ 2 ^ bit) := by
        rw [hT2def, flipBit, List.drop_set, if_neg (by omega), hDrop]
      rw [hTtake, hTdrop, ← hmacdef]
      intro heq
      have hjlt : i - (T.length - 32) < mac.length := by rw [hmaclen]; omega
      have hTd : T.getD i 0 = mac.getD (i - (T.length - 32)) 0 := by
        conv_lhs => rw [hTB]
        rw [List.getD_append_right B mac 0 i hjB]
        congr 1
        rw [hBlen, hTlen]
        omega
      have h2 := congrArg (fun l => l.getD (i - (T.length - 32)) 0) heq
      simp only at h2
      have h2v : (mac.set (i - (T.length - 32)) (T.getD i 0 ^^^ 2 ^ bit)).getD
          (i - (T.length - 32)) 0 = T.getD i 0 ^^^ 2 ^ bit := by
        rw [List.getD_eq_getElem (mac.set (i - (T.length - 32))
          (T.getD i 0 ^^^ 2 ^ bit)) 0 (by rw [List.length_set]; exact hjlt)]
        exact List.getElem_set_self _
      rw [h2v, hTd] at h2
      have h3 : mac.getD (i - (T.length - 32)) 0 ^^^ 0 =
          mac.getD (i - (T.length - 32)) 0 ^^^ 2 ^ bit := by
        rw [Nat.xor_zero]
        exact h2
      have h4 : (0 : Nat) = 2 ^ bit := Nat.xor_right_inj.mp h3
      have h5 : 0 < 2 ^ bit := Nat.pos_pow_of_pos bit (by omega)
      omega
    · rw [fernetSigningKey]
      exact hne
  have herr : fernetDecrypt P key (b64UrlEncode T2) = .error .invalidToken := by
    rw [fernetDecrypt, b64UrlDecode_b64UrlEncode hok2]
    show fernetDecryptToken P key T2 = .error .invalidToken
    unfold fernetDecryptToken
    rw [if_neg (by rw [hlen2, hTlen]; omega),
      if_neg (by rw [hhead]; exact fun h => h rfl), if_pos hcond]
  refine ⟨herr, ?_⟩
  simp only [decryptData, b64Decode_b64Encode (byteOk_b64UrlEncode T2), herr]

set_option maxRecDepth 4000 in
/-- Witness for C7: flipping bit 0 of the first ciphertext byte (index 25)
of a concrete encoded frame makes `decrypt` fail with `InvalidToken` and
`decrypt_data` return `None`. -/
theorem C7_tamper_detection_witness :
    fernetDecrypt testPrims (List.range 32)
        (b64UrlEncode (flipBit (fernetTokenBytes testPrims (List.range 32)
          (List.replicate 8 1) (List.range 16) [104, 105]) 25 0)) =
      .error .invalidToken ∧
    decryptData testPrims (List.range 32)
        (b64Encode (b64UrlEncode (flipBit (fernetTokenBytes testPrims (List.range 32)
          (List.replicate 8 1) (List.range 16) [104, 105]) 25 0))) = none :=
  C7_tamper_detection testPrims (List.range 32) (List.replicate 8 1) (List.range 16)
    [104, 105] 25 0 testPrimsOk (by decide) (by decide) (by decide) (by decide)
    (by decide) (by decide) (by decide) (by decide) (by decide)
    (Or.inr (by decide))

/-! ## `AWSIoTPublisher.safe_publish` (`cloud/mqtt_client.py`)

The loop `for attempt in range(1, MAX_RETRIES + 1)` is embedded with one
recursive step per iteration, and the side effects (`client.reconnect()`,
`time.sleep(...)`, `client.publish(...)`) are collected as an event
trace.  The transport's behaviour at each attempt (connection flag,
whether `reconnect()` raises, the publish result code) is an external
input. -/

/-- `MAX_RETRIES` in `cloud/mqtt_client.py`. -/
def MAX_RETRIES : Nat := 3

/-- `RECONNECT_WAIT_S` in `cloud/mqtt_client.py`. -/
def RECONNECT_WAIT_S : Nat := 2

/-- `BACKOFF_BASE_S` in `cloud/mqtt_client.py`. -/
def BACKOFF_BASE_S : Nat := 1

/-- Transport behaviour at one attempt: what `_is_connected()` returns,
whether `client.reconnect()` raises, and the publish result code. -/
structure TransportStep where
  connected : Bool
  reconnectOk : Bool
  rc : Nat

/-- One observable side effect of a `safe_publish` call. -/
inductive PubEvent where
  | reconnectCall
  | sleep (seconds : Nat)
  | publish (rc : Nat)
deriving DecidableEq, Repr

/-- The retry loop of `safe_publish` (`attempt` counts from 1;
`remaining = MAX_RETRIES - attempt + 1` iterations are left).  When not
connected: reconnect, and on reconnect failure sleep the backoff inside
the exception handler and continue; after a successful reconnect sleep
the settle interval and publish.  Result code 0 returns `True`
immediately; any other code sleeps `BACKOFF_BASE_S * 2^(attempt-1)`
(unless this was the last attempt) and retries.  After the loop, return
`False`. -/
def safePublishLoop (steps : Nat → TransportStep) (maxRetries recWait base : Nat) :
    Nat → Nat → Bool × List PubEvent
  | _, 0 => (false, [])
  | attempt, remaining + 1 =>
      let st := steps attempt
      let backoff : List PubEvent :=
        if attempt < maxRetries then [.sleep (base * 2 ^ (attempt - 1))] else []
      if st.connected then
        if st.rc = 0 then (true, [.publish st.rc])
        else
          let next := safePublishLoop steps maxRetries recWait base (attempt + 1) remaining
          (next.1, .publish st.rc :: backoff ++ next.2)
      else
        if st.reconnectOk then
          if st.rc = 0 then (true, [.reconnectCall, .sleep recWait, .publish st.rc])
          else
            let next := safePublishLoop steps maxRetries recWait base (attempt + 1) remaining
            (next.1, .reconnectCall :: .sleep recWait :: .publish st.rc ::
              backoff ++ next.2)
        else
          let next := safePublishLoop steps maxRetries recWait base (attempt + 1) remaining
          (next.1, .reconnectCall :: backoff ++ next.2)

/-- `safe_publish`: never raises; returns whether some attempt succeeded,
together with the trace of reconnects, sleeps and publish calls. -/
def safePublish (steps : Nat → TransportStep) : Bool × List PubEvent :=
  safePublishLoop steps MAX_RETRIES RECONNECT_WAIT_S BACKOFF_BASE_S 1 MAX_RETRIES

/-- C1: when the transport reports the not-connected result code (rc = 4)
on every publish attempt while the connection flag reads true, with
`MAX_RETRIES = 3` and `BACKOFF_BASE_S = 1`, `safe_publish` makes exactly
three publish attempts, sleeps 1 second between attempts 1 and 2 and
2 seconds between attempts 2 and 3 (`base * 2^(attempt-1)`), and returns
`False` without raising. -/
theorem C1_publisher_exhaustion (steps : Nat → TransportStep)
    (h : ∀ n, (steps n).connected = true ∧ (steps n).rc = 4) :
    safePublish steps =
      (false, [.publish 4, .sleep 1, .publish 4, .sleep 2, .publish 4]) := by
  simp [safePublish, safePublishLoop, MAX_RETRIES, RECONNECT_WAIT_S, BACKOFF_BASE_S,
    (h 1).1, (h 1).2, (h 2).1, (h 2).2, (h 3).1, (h 3).2]

/-- Witness for C1 with the constant always-rc-4 transport. -/
theorem C1_publisher_exhaustion_witness :
    safePublish (fun _ => ⟨true, true, 4⟩) =
      (false, [.publish 4, .sleep 1, .publish 4, .sleep 2, .publish 4]) :=
  C1_publisher_exhaustion (fun _ => ⟨true, true, 4⟩) (fun _ => ⟨rfl, rfl⟩)

/-! ## `BlackboxLogger` (`storage/blackbox_logger.py`)

The log directory is an association list from file name to the file's
text lines.  A line is the already-serialized output of `json.dumps`
(external) plus the trailing newline accounted in `fileSize`.  An archive
file is represented by the lines that were gzip-compressed into it (gzip
is an external, content-preserving, invertible encoding).  Each operation
returns the new directory and the trace of file-system effects, in
program order. -/

/-- A log directory: file name to text lines. -/
abbrev LogDir := List (String × List String)

/-- Look a file up by name. -/
def fsGet : LogDir → String → Option (List String)
  | [], _ => none
  | (m, v) :: t, n => if m = n then some v else fsGet t n

/-- Create or overwrite a file. -/
def fsSet : LogDir → String → List String → LogDir
  | [], n, v => [(n, v)]
  | (m, w) :: t, n, v => if m = n then (n, v) :: t else (m, w) :: fsSet t n v

/-- `os.remove`. -/
def fsRemove (fs : LogDir) (n : String) : LogDir :=
  fs.filter (fun e => e.1 ≠ n)

/-- `os.listdir`. -/
def fsNames (fs : LogDir) : List String := fs.map (fun e => e.1)

/-- File size in bytes: each line's UTF-8 length plus its newline. -/
def fileSize (ls : List String) : Nat := (ls.map (fun l => l.length + 1)).sum

/-- One file-system side effect of a logger call. -/
inductive FsEvent where
  | append (file : String) (line : String)
  | archiveWrite (file : String) (lines : List String)
  | removeFile (file : String)
deriving DecidableEq, Repr

/-- `self.current_log_file` (basename; the directory prefix is common to
all files and dropped). -/
def currentLogFile : String := "blackbox_current.jsonl"

/-- `self.crash_log_file`. -/
def crashLogFile : String := "crash_events.jsonl"

/-- The archive name built by
`filepath.replace("current", f"archive_{timestamp}").replace(".jsonl", ".jsonl.gz")`
applied to the active-log path (the only path `_rotate_log` is called
with) and an `%Y%m%d_%H%M%S` timestamp. -/
def archiveNameFor (ts : String) : String :=
  "blackbox_archive_" ++ ts ++ ".jsonl.gz"

/-- `f.startswith("blackbox_archive_")`. -/
def isArchiveFile (n : String) : Bool :=
  "blackbox_archive_".data.isPrefixOf n.data

/-- Insert into a descending-sorted list. -/
def insertDesc (x : String) : List String → List String
  | [] => [x]
  | y :: ys => if y < x then x :: y :: ys else y :: insertDesc x ys

/-- `sorted(..., reverse=True)`. -/
def sortDesc : List String → List String
  | [] => []
  | x :: xs => insertDesc x (sortDesc xs)

/-- `_cleanup_old_archives`: list the archive files newest-first and
remove every one beyond the rotation count. -/
def cleanupOldArchives (rotationCount : Nat) (fs : LogDir) : LogDir × List FsEvent :=
  let toRemove := (sortDesc ((fsNames fs).filter isArchiveFile)).drop rotationCount
  (toRemove.foldl (fun acc n => fsRemove acc n) fs,
    toRemove.map FsEvent.removeFile)

/-- Append one line to a file, creating it if absent (`open(..., 'a')`). -/
def appendLine (fs : LogDir) (file line : String) : LogDir :=
  fsSet fs file ((fsGet fs file).getD [] ++ [line])

/-- `_rotate_log`: nothing below the size threshold; otherwise compress
the whole current content into a timestamp-named archive, then remove the
original, then prune old archives. -/
def rotateLog (maxSizeBytes rotationCount : Nat) (ts : String) (fs : LogDir)
    (filePath : String) : LogDir × List FsEvent :=
  match fsGet fs filePath with
  | none => (fs, [])
  | some content =>
      if fileSize content < maxSizeBytes then (fs, [])
      else
        let cu := cleanupOldArchives rotationCount
          (fsRemove (fsSet fs (archiveNameFor ts) content) filePath)
        (cu.1, .archiveWrite (archiveNameFor ts) content ::
          .removeFile filePath :: cu.2)

/-- `BlackboxLogger.log`: append the serialized entry line to the active
log, then check rotation. -/
def blackboxLog (maxSizeBytes rotationCount : Nat) (ts : String) (fs : LogDir)
    (line : String) : LogDir × List FsEvent :=
  let fs1 := appendLine fs currentLogFile line
  let ro := rotateLog maxSizeBytes rotationCount ts fs1 currentLogFile
  (ro.1, .append currentLogFile line :: ro.2)

/-- `BlackboxLogger.log_crash`: append the crash entry line to the
dedicated crash-only log, then also log to the general log. -/
def blackboxLogCrash (maxSizeBytes rotationCount : Nat) (ts : String) (fs : LogDir)
    (crashLine genLine : String) : LogDir × List FsEvent :=
  let fs1 := appendLine fs crashLogFile crashLine
  let lo := blackboxLog maxSizeBytes rotationCount ts fs1 genLine
  (lo.1, .append crashLogFile crashLine :: lo.2)

theorem fsGet_fsSet_eq (fs : LogDir) (n : String) (v : List String) :
    fsGet (fsSet fs n v) n = some v := by
  induction fs with
  | nil => simp [fsSet, fsGet]
  | cons e t ih =>
      obtain ⟨m, w⟩ := e
      by_cases h : m = n
      · simp [fsSet, fsGet, h]
      · simp [fsSet, fsGet, h, ih]

theorem fsGet_fsSet_ne (fs : LogDir) {m n : String} (h : m ≠ n) (v : List String) :
    fsGet (fsSet fs n v) m = fsGet fs m := by
  induction fs with
  | nil => simp [fsSet, fsGet, Ne.symm h]
  | cons e t ih =>
      obtain ⟨p, w⟩ := e
      simp only [fsSet]
      by_cases hp : p = n
      · subst hp
        simp [fsGet, Ne.symm h]
      · by_cases hm : p = m
        · subst hm
          simp [fsGet, hp]
        · simp [fsGet, hp, hm, ih]

theorem fsGet_fsRemove_ne (fs : LogDir) {m n : String} (h : m ≠ n) :
    fsGet (fsRemove fs n) m = fsGet fs m := by
  induction fs with
  | nil => rfl
  | cons e t ih =>
      obtain ⟨p, w⟩ := e
      simp only [fsRemove, List.filter_cons, ne_eq, decide_not] at ih ⊢
      by_cases hp : p = n
      · subst hp
        simp [fsGet, Ne.symm h, ih]
      · by_cases hm : p = m
        · subst hm
          simp [fsGet, hp, ih]
        · simp [fsGet, hp, hm, ih]

theorem fsGet_foldl_fsRemove (names : List String) (fs : LogDir) {m : String}
    (h : m ∉ names) : fsGet (names.foldl (fun acc n => fsRemove acc n) fs) m =
      fsGet fs m := by
  induction names generalizing fs with
  | nil => rfl
  | cons n ns ih =>
      simp only [List.foldl_cons]
      rw [ih (fsRemove fs n) (fun hx => h (List.mem_cons_of_mem n hx))]
      exact fsGet_fsRemove_ne fs
        (fun hx => h (by rw [hx]; exact List.mem_cons_self n ns))

theorem mem_insertDesc {x y : String} {l : List String} :
    x ∈ insertDesc y l → x = y ∨ x ∈ l := by
  induction l with
  | nil => intro h; simpa [insertDesc] using h
  | cons z zs ih =>
      intro h
      simp only [insertDesc] at h
      by_cases hz : z < y
      · simp [hz] at h
        rcases h with h | h | h
        · exact Or.inl h
        · exact Or.inr (by simp [h])
        · exact Or.inr (by simp [h])
      · simp [hz] at h
        rcases h with h | h
        · exact Or.inr (by simp [h])
        · rcases ih h with h' | h'
          · exact Or.inl h'
          · exact Or.inr (by simp [h'])

theorem mem_sortDesc {x : String} {l : List String} :
    x ∈ sortDesc l → x ∈ l := by
  induction l with
  | nil => intro h; simpa [sortDesc] using h
  | cons y ys ih =>
      intro h
      rcases mem_insertDesc h with h' | h'
      · simp [h']
      · simp [ih h']

theorem cleanupOldArchives_preserves (rotationCount : Nat) (fs : LogDir)
    {m : String} (h : isArchiveFile m = false) :
    fsGet (cleanupOldArchives rotationCount fs).1 m = fsGet fs m := by
  refine fsGet_foldl_fsRemove _ fs (fun hmem => ?_)
  have h1 : m ∈ sortDesc ((fsNames fs).filter isArchiveFile) :=
    List.mem_of_mem_drop hmem
  have h2 := mem_sortDesc h1
  have h3 := List.of_mem_filter h2
  rw [h] at h3
  cases h3

theorem fsGet_fsRemove_self (fs : LogDir) (n : String) :
    fsGet (fsRemove fs n) n = none := by
  induction fs with
  | nil => rfl
  | cons e t ih =>
      obtain ⟨p, w⟩ := e
      simp only [fsRemove, List.filter_cons, ne_eq, decide_not] at ih ⊢
      by_cases hp : p = n
      · simp [hp, ih]
      · simp [fsGet, hp, ih]

theorem crash_ne_current : crashLogFile ≠ currentLogFile := by decide

theorem crash_ne_archive (ts : String) : crashLogFile ≠ archiveNameFor ts := by
  intro heq
  have hl := congrArg String.length heq
  rw [archiveNameFor, String.length_append, String.length_append] at hl
  have h1 : ("crash_events.jsonl" : String).length = 18 := by decide
  have h2 : ("blackbox_archive_" : String).length = 17 := by decide
  have h3 : (".jsonl.gz" : String).length = 9 := by decide
  rw [crashLogFile, h1, h2, h3] at hl
  omega

theorem isArchiveFile_crash : isArchiveFile crashLogFile = false := by decide

theorem isArchiveFile_current : isArchiveFile currentLogFile = false := by decide

/-- C10: rotation and archive pruning touch only the active log and the
`blackbox_archive_*` files; the dedicated crash-only log
`crash_events.jsonl` is never rotated, compressed or deleted by any
logger operation.  `log` (with its rotation and pruning) leaves the crash
log exactly unchanged, and `log_crash` extends it by exactly the one new
crash line, keeping every previously written line as a prefix — so the
crash log grows without bound. -/
theorem C10_crash_log_untouched (maxSizeBytes rotationCount : Nat) (ts : String)
    (fs : LogDir) (line crashLine genLine : String) :
    fsGet (blackboxLog maxSizeBytes rotationCount ts fs line).1 crashLogFile =
      fsGet fs crashLogFile ∧
    fsGet (blackboxLogCrash maxSizeBytes rotationCount ts fs crashLine genLine).1
        crashLogFile =
      some ((fsGet fs crashLogFile).getD [] ++ [crashLine]) := by
  have hlog : ∀ (gs : LogDir) (l : String),
      fsGet (blackboxLog maxSizeBytes rotationCount ts gs l).1 crashLogFile =
        fsGet gs crashLogFile := by
    intro gs l
    have h1 : fsGet (appendLine gs currentLogFile l) crashLogFile =
        fsGet gs crashLogFile := by
      rw [appendLine]
      exact fsGet_fsSet_ne _ crash_ne_current _
    simp only [blackboxLog, rotateLog]
    cases hg : fsGet (appendLine gs currentLogFile l) currentLogFile with
    | none => simpa using h1
    | some content =>
        by_cases hsz : fileSize content < maxSizeBytes
        · simpa [hsz] using h1
        · simp only [if_neg hsz]
          rw [cleanupOldArchives_preserves rotationCount _ isArchiveFile_crash,
            fsGet_fsRemove_ne _ crash_ne_current,
            fsGet_fsSet_ne _ (crash_ne_archive ts) _, h1]
  refine ⟨hlog fs line, ?_⟩
  simp only [blackboxLogCrash]
  rw [hlog (appendLine fs crashLogFile crashLine) genLine, appendLine,
    fsGet_fsSet_eq]

/-- C5 counterexample: with a 4-byte maximum, an active log holding the
single line "aa" (3 bytes) and an append of "bb" that crosses the
threshold, the timestamp-named archive receives the post-append content
["aa", "bb"] — including the record whose append triggered the rotation —
and not the pre-append content ["aa"] that the claim states. -/
theorem C5_rotation_counterexample :
    fsGet (blackboxLog 4 5 "T" [(currentLogFile, ["aa"])] "bb").1
        (archiveNameFor "T") = some ["aa", "bb"] ∧
    fsGet (blackboxLog 4 5 "T" [(currentLogFile, ["aa"])] "bb").1
        (archiveNameFor "T") ≠ some ["aa"] :=
  ⟨by decide, by decide⟩

/-- C5 (amended): when an append makes the active log reach or exceed the
configured maximum size, that same append triggers rotation, which
archives the entire post-append content — the pre-append records plus the
record just appended, not the pre-append content alone — into the
gzip-compressed timestamp-named archive, with archive-then-delete
ordering (the archive write event strictly precedes the removal of the
active log, which is never truncated first), and afterwards the active
log file is absent, so it holds only records appended after the
rotation. -/
theorem C5_rotation_amended (maxSizeBytes rotationCount : Nat) (ts line : String)
    (fs : LogDir)
    (hsz : maxSizeBytes ≤ fileSize ((fsGet fs currentLogFile).getD [] ++ [line])) :
    (blackboxLog maxSizeBytes rotationCount ts fs line).2 =
      .append currentLogFile line ::
      .archiveWrite (archiveNameFor ts)
        ((fsGet fs currentLogFile).getD [] ++ [line]) ::
      .removeFile currentLogFile ::
      (cleanupOldArchives rotationCount
        (fsRemove (fsSet (appendLine fs currentLogFile line) (archiveNameFor ts)
          ((fsGet fs currentLogFile).getD [] ++ [line])) currentLogFile)).2 ∧
    fsGet (blackboxLog maxSizeBytes rotationCount ts fs line).1 currentLogFile =
      none := by
  have hget : fsGet (appendLine fs currentLogFile line) currentLogFile =
      some ((fsGet fs currentLogFile).getD [] ++ [line]) := by
    rw [appendLine]
    exact fsGet_fsSet_eq _ _ _
  constructor
  · simp only [blackboxLog, rotateLog, hget]
    rw [if_neg (by omega)]
  · simp only [blackboxLog, rotateLog, hget]
    rw [if_neg (by omega)]
    rw [cleanupOldArchives_preserves rotationCount _ isArchiveFile_current,
      fsGet_fsRemove_self]

/-- Witness for the amended C5 theorem at a concrete directory, line and
size limit: after the triggering append, the active log is gone. -/
theorem C5_rotation_amended_witness :
    fsGet (blackboxLog 4 5 "T" [(currentLogFile, ["aa"])] "bb").1 currentLogFile =
      none :=
  (C5_rotation_amended 4 5 "T" "bb" [(currentLogFile, ["aa"])] (by decide)).2

/-! ## `ImpactSensor` (`sensors/impact_sensor.py`)

Timestamps and accelerations are embedded as exact integers in a fixed
unit (the witnesses use milliseconds and m/s² respectively); the Python
code uses floats, so its behaviour at an exact boundary depends on the
rounding of the particular literals, while the comparison logic itself —
strict `<` for the debounce skip, `>=` for the acceleration threshold,
`<=` for the correlation window — is embedded verbatim. -/

/-- Constructor configuration of `ImpactSensor`. -/
structure ImpactConfig where
  numChannels : Nat
  accelThreshold : Int
  correlationWindow : Int
  debounceTime : Int
  cooldownTime : Int

/-- Mutable sensor-fusion state: per-channel last accepted trigger time
(`last_sb420_read_time`, keyed here by channel index since pins are
distinct), the bounded recent-trigger deque (`sb420_triggers`, maxlen
10), and the last confirmed impact time. -/
structure ImpactState where
  lastReadTime : Nat → Int
  triggers : List (Int × Nat)
  lastImpactTime : Int

/-- `_read_sb420_sensors`: for each channel in order, skip it while
`now - last_read < debounce_time` (strict); otherwise read the digital
line and, when HIGH, emit `(now, idx)` and set the channel's last
trigger time to `now`. -/
def readSb420 (cfg : ImpactConfig) (st : ImpactState) (now : Int)
    (pinHigh : Nat → Bool) : List (Int × Nat) × ImpactState :=
  let r := (List.range cfg.numChannels).foldl
    (fun (acc : List (Int × Nat) × (Nat → Int)) idx =>
      if now - acc.2 idx < cfg.debounceTime then acc
      else if pinHigh idx then
        (acc.1 ++ [(now, idx)], fun j => if j = idx then now else acc.2 j)
      else acc)
    ([], st.lastReadTime)
  (r.1, { st with lastReadTime := r.2 })

/-- Append to a `deque(maxlen=10)`: oldest entries beyond ten are
evicted. -/
def dequeAppend10 (l : List (Int × Nat)) (x : Int × Nat) : List (Int × Nat) :=
  (l ++ [x]).drop ((l ++ [x]).length - 10)

/-- `detect_impact`: cooldown gate, poll the channels and store their
triggers in the recent-trigger window, require the acceleration
magnitude to reach the threshold, then confirm on the first stored
trigger within the correlation window. -/
def detectImpact (cfg : ImpactConfig) (st : ImpactState) (accelMagnitude : Int)
    (now : Int) (pinHigh : Nat → Bool) : Bool × ImpactState :=
  if now - st.lastImpactTime < cfg.cooldownTime then (false, st)
  else
    let r := readSb420 cfg st now pinHigh
    let st1 := { r.2 with triggers := r.1.foldl dequeAppend10 r.2.triggers }
    if accelMagnitude < cfg.accelThreshold then (false, st1)
    else
      match st1.triggers.find? (fun t => |now - t.1| ≤ cfg.correlationWindow) with
      | some _ => (true, { st1 with lastImpactTime := now })
      | none => (false, st1)

/-- C6 counterexample: a channel-0 trigger at t = 10.060 s, exactly the
0.05 s debounce interval after its previous accepted trigger at
t = 10.010 s (times in milliseconds, exact arithmetic) IS recorded as a
new ImpactTrigger in the recent-trigger window: the debounce test is
strict (`now - last < debounce` skips), so the boundary case passes. -/
theorem C6_debounce_counterexample :
    (10060, 0) ∈
      (detectImpact ⟨1, 7, 200, 50, 1000⟩
        ⟨fun _ => 10010, [], 0⟩ 20 10060 (fun _ => true)).2.triggers := by
  decide

/-- C6 (amended): the debounce gate skips a channel only while
`now - last_trigger_time < debounce_interval` holds strictly; a trigger
occurring exactly the debounce interval after that channel's previous
accepted trigger passes the gate and, with the line HIGH, IS recorded as
a new ImpactTrigger in the recent-trigger window (stated for a
single-channel sensor with room in the 10-entry window). -/
theorem C6_debounce_amended (cfg : ImpactConfig) (st : ImpactState)
    (accelMagnitude now : Int) (pinHigh : Nat → Bool)
    (hch : cfg.numChannels = 1)
    (hcool : cfg.cooldownTime ≤ now - st.lastImpactTime)
    (hdeb : now - st.lastReadTime 0 = cfg.debounceTime)
    (hhigh : pinHigh 0 = true)
    (hlen : st.triggers.length ≤ 9) :
    (now, 0) ∈ (detectImpact cfg st accelMagnitude now pinHigh).2.triggers := by
  have hncool : ¬ (now - st.lastImpactTime < cfg.cooldownTime) := by omega
  have hndeb : ¬ (now - st.lastReadTime 0 < cfg.debounceTime) := by omega
  have hmem : (now, 0) ∈ dequeAppend10 st.triggers (now, 0) := by
    rw [dequeAppend10]
    have hl : (st.triggers ++ [(now, 0)]).length - 10 = 0 := by
      simp [List.length_append]
      omega
    rw [hl, List.drop_zero]
    exact List.mem_append_right _ (by simp)
  have hread : readSb420 cfg st now pinHigh =
      ([(now, 0)],
        { st with lastReadTime := fun j => if j = 0 then now else st.lastReadTime j }) := by
    rw [readSb420, hch]
    simp [show List.range 1 = [0] from rfl, if_neg hndeb, hhigh]
  rw [detectImpact, if_neg hncool, hread]
  simp only [List.foldl_cons, List.foldl_nil]
  by_cases haccel : accelMagnitude < cfg.accelThreshold
  · simpa [haccel] using hmem
  · simp only [if_neg haccel]
    cases hfind : List.find?
        (fun t => decide (|now - t.1| ≤ cfg.correlationWindow))
        (dequeAppend10 st.triggers (now, 0)) with
    | some t => simpa [hfind] using hmem
    | none => simpa [hfind] using hmem

/-- Witness for the amended C6 theorem: channel 0, previous accepted
trigger at t = 0 ms, new trigger at exactly t = 50 ms with a 50 ms
debounce interval — the trigger is recorded. -/
theorem C6_debounce_amended_witness :
    ((50 : Int), 0) ∈
      (detectImpact ⟨1, 7, 200, 50, 1000⟩
        ⟨fun _ => 0, [], -2000⟩ 20 50 (fun _ => true)).2.triggers :=
  C6_debounce_amended ⟨1, 7, 200, 50, 1000⟩ ⟨fun _ => 0, [], -2000⟩ 20 50
    (fun _ => true) rfl (by norm_num) (by norm_num) rfl (by decide)

/-! ## GPS caching in `CrashDetectionUnit.read_all_sensors` (`main.py`)

A tick reads accelerometer, gyroscope and temperature (external reads,
carried as an opaque payload), polls the GPS, refreshes the cached
`last_known_gps` only when the raw reading exists with fix-quality > 0,
and stamps the assembled frame's `gps` field with the cache. -/

/-- One GPS reading (the dict produced by `GPSSensor.get_position` /
cached in `self.last_known_gps`); numeric payloads embedded as exact
integers, their values never computed on. -/
structure GpsReading where
  latitude : Int
  longitude : Int
  altitude : Int
  satellites : Int
  fixQuality : Int
deriving DecidableEq, Repr

/-- `if gps_raw and gps_raw.get("fix_quality", 0) > 0`. -/
def validFix (raw : Option GpsReading) : Bool :=
  match raw with
  | some r => 0 < r.fixQuality
  | none => false

/-- The cache update of `read_all_sensors`: refresh on a valid fix,
otherwise keep the previous cache. -/
def updateLastKnownGps (last raw : Option GpsReading) : Option GpsReading :=
  match raw with
  | some r => if 0 < r.fixQuality then some r else last
  | none => last

/-- The assembled per-tick sensor frame; everything except the location
is an opaque external payload. -/
structure SensorFrame (β : Type) where
  payload : β
  gps : Option GpsReading
deriving DecidableEq, Repr

/-- One `read_all_sensors` tick: update the cache, stamp the frame. -/
def readAllSensors {β : Type} (lastKnown : Option GpsReading) (payload : β)
    (gpsRaw : Option GpsReading) : SensorFrame β × Option GpsReading :=
  (⟨payload, updateLastKnownGps lastKnown gpsRaw⟩,
    updateLastKnownGps lastKnown gpsRaw)

/-- The sampling loop restricted to its frame assembly: fold
`read_all_sensors` over a list of (payload, raw GPS) tick inputs,
starting from a cache state (`None` at boot). -/
def runTicks {β : Type} :
    List (β × Option GpsReading) → Option GpsReading →
      List (SensorFrame β) × Option GpsReading
  | [], last => ([], last)
  | (p, raw) :: rest, last =>
      let r := readAllSensors last p raw
      let t := runTicks rest r.2
      (r.1 :: t.1, t.2)

theorem updateLastKnownGps_isSome {last raw : Option GpsReading}
    (h : last.isSome) : (updateLastKnownGps last raw).isSome := by
  cases raw with
  | none => exact h
  | some r =>
      by_cases hq : 0 < r.fixQuality
      · simp [updateLastKnownGps, hq]
      · simpa [updateLastKnownGps, hq] using h

theorem updateLastKnownGps_valid {last : Option GpsReading} {raw : Option GpsReading}
    (h : validFix raw = true) : (updateLastKnownGps last raw).isSome := by
  cases raw with
  | none => simp [validFix] at h
  | some r =>
      simp only [validFix, decide_eq_true_eq] at h
      simp [updateLastKnownGps, h]

theorem foldl_update_isSome_mono {β : Type}
    (l : List (β × Option GpsReading)) (init : Option GpsReading)
    (h : init.isSome) :
    (l.foldl (fun acc t => updateLastKnownGps acc t.2) init).isSome := by
  induction l generalizing init with
  | nil => exact h
  | cons t rest ih =>
      exact ih (updateLastKnownGps init t.2) (updateLastKnownGps_isSome h)

theorem foldl_update_isSome_of_valid {β : Type}
    (l : List (β × Option GpsReading)) (init : Option GpsReading)
    (h : ∃ t ∈ l, validFix t.2 = true) :
    (l.foldl (fun acc t => updateLastKnownGps acc t.2) init).isSome := by
  induction l generalizing init with
  | nil => rcases h with ⟨t, ht, _⟩; cases ht
  | cons t rest ih =>
      rcases h with ⟨u, hu, hv⟩
      rcases List.mem_cons.mp hu with rfl | hu
      · exact foldl_update_isSome_mono rest _ (updateLastKnownGps_valid hv)
      · exact ih (updateLastKnownGps init t.2) ⟨u, hu, hv⟩

theorem runTicks_gps {β : Type} :
    ∀ (ticks : List (β × Option GpsReading)) (init : Option GpsReading)
      (k : Nat) (f : SensorFrame β),
      ((runTicks ticks init).1.get? k = some f) →
      f.gps = (ticks.take (k + 1)).foldl
        (fun acc t => updateLastKnownGps acc t.2) init := by
  intro ticks
  induction ticks with
  | nil => intro init k f hf; simp [runTicks] at hf
  | cons t rest ih =>
      intro init k f hf
      obtain ⟨p, raw⟩ := t
      cases k with
      | zero =>
          simp only [runTicks, readAllSensors, List.get?_cons_zero,
            Option.some.injEq] at hf
          subst hf
          simp [List.take_succ_cons, List.foldl_cons]
      | succ j =>
          simp only [runTicks, readAllSensors, List.get?_cons_succ] at hf
          rw [List.take_succ_cons, List.foldl_cons]
          exact ih (updateLastKnownGps init raw) j f hf

theorem updateLastKnownGps_invalid {last raw : Option GpsReading}
    (h : validFix raw = false) : updateLastKnownGps last raw = last := by
  cases raw with
  | none => rfl
  | some r =>
      simp only [validFix, decide_eq_false_iff_not] at h
      simp [updateLastKnownGps, h]

/-- C8: on every sampling tick, the assembled frame's location field is
the cached most recent valid fix.  Once any earlier tick (up to and
including the current one) has yielded a valid fix (fix-quality > 0),
the frame's location is non-null; and on a tick whose own reading is not
a valid fix, the frame carries forward the cache built from the earlier
ticks rather than null. -/
theorem C8_location_caching {β : Type} (ticks : List (β × Option GpsReading))
    (k : Nat) (f : SensorFrame β)
    (hf : (runTicks ticks none).1.get? k = some f) :
    f.gps = (ticks.take (k + 1)).foldl
      (fun acc t => updateLastKnownGps acc t.2) none ∧
    ((∃ j, j ≤ k ∧ ∃ pr, ticks.get? j = some pr ∧ validFix pr.2 = true) →
      f.gps.isSome) ∧
    (∀ pr, ticks.get? k = some pr → validFix pr.2 = false →
      f.gps = (ticks.take k).foldl
        (fun acc t => updateLastKnownGps acc t.2) none) := by
  have hgps := runTicks_gps ticks none k f hf
  refine ⟨hgps, ?_, ?_⟩
  · rintro ⟨j, hjk, pr, hpr, hval⟩
    rw [hgps]
    refine foldl_update_isSome_of_valid _ none ⟨pr, ?_, hval⟩
    refine List.get?_mem (n := j) ?_
    rw [List.get?_take (by omega)]
    exact hpr
  · intro pr hk hval
    rw [List.get?_eq_getElem?] at hk
    rw [hgps, List.take_succ, hk]
    simp only [Option.toList_some, List.foldl_append, List.foldl_cons,
      List.foldl_nil]
    rw [updateLastKnownGps_invalid hval]

/-- Witness for C8: two ticks — a valid fix, then no fix — leave the
second frame's location carrying the first tick's fix, non-null. -/
theorem C8_location_caching_witness :
    ((runTicks [((0 : Nat), some (⟨1, 2, 3, 4, 1⟩ : GpsReading)), (0, none)]
        none).1.get? 1 =
      some ⟨0, some ⟨1, 2, 3, 4, 1⟩⟩) ∧
    (⟨(0 : Nat), some (⟨1, 2, 3, 4, 1⟩ : GpsReading)⟩ : SensorFrame Nat).gps.isSome :=
  ⟨by decide,
    (C8_location_caching [((0 : Nat), some ⟨1, 2, 3, 4, 1⟩), (0, none)] 1
        ⟨0, some ⟨1, 2, 3, 4, 1⟩⟩ (by decide)).2.1
      ⟨0, by omega, ((0 : Nat), some ⟨1, 2, 3, 4, 1⟩), by decide, by decide⟩⟩

/-! ## `CrashDetectionUnit.handle_crash` (`main.py`)

`handle_crash` builds the crash payload, always logs it to the blackbox
first, then — depending on `is_network_available()` — publishes to the
primary MQTT transport (falling back to LoRa when `publish` raises) or
goes straight to the LoRa fallback.  The serialized crash payload bytes,
the blackbox lines for it, the network-availability probe and whether
`publish` raises are external inputs. -/

/-- One observable step of `handle_crash`: a blackbox file-system effect,
the primary-transport publish, or a radio send of a frame. -/
inductive CrashEvent where
  | fs (e : FsEvent)
  | mqttPublish
  | loraSend (frame : List Nat)
deriving DecidableEq, Repr

/-- Modelled from the spec: `LoRaCrashTX.send_payload` — `main.py`
imports `LoRaCrashTX` from `lora/lora_tx.py`, but the sources under
`src/` define only the lower-level `LoRaTransmitter`, not `LoRaCrashTX`.
Per §4.3/§4.4, before falling back the fallback payload is produced via
`SecureFrameCodec.encode`, and the radio's `send` is then invoked once on
the encoded frame. -/
def loraCrashSendPayload (P : FernetPrims) (key iv pt : List Nat) :
    List CrashEvent :=
  [.loraSend (specCodecEncode P key iv pt)]

/-- `handle_crash`: blackbox crash log first, then primary delivery with
LoRa fallback (on a raised publish) or direct LoRa fallback when the
network probe fails. -/
def handleCrash (maxSizeBytes rotationCount : Nat) (ts : String) (fs : LogDir)
    (crashLine genLine : String) (netAvailable publishRaises : Bool)
    (P : FernetPrims) (key iv pt : List Nat) : LogDir × List CrashEvent :=
  let bb := blackboxLogCrash maxSizeBytes rotationCount ts fs crashLine genLine
  let delivery : List CrashEvent :=
    if netAvailable then
      if publishRaises then .mqttPublish :: loraCrashSendPayload P key iv pt
      else [.mqttPublish]
    else loraCrashSendPayload P key iv pt
  (bb.1, bb.2.map CrashEvent.fs ++ delivery)

/-- C9: for every confirmed crash — whatever the file-system state, the
network probe and the publish outcome — the durable crash-log append is
the very first event of the `handle_crash` trace, and every
network-delivery event (MQTT publish or LoRa send) occurs strictly
later. -/
theorem C9_durability_before_network (maxSizeBytes rotationCount : Nat)
    (ts : String) (fs : LogDir) (crashLine genLine : String)
    (netAvailable publishRaises : Bool) (P : FernetPrims) (key iv pt : List Nat)
    (j : Nat) (e : CrashEvent)
    (he : (handleCrash maxSizeBytes rotationCount ts fs crashLine genLine
      netAvailable publishRaises P key iv pt).2.get? j = some e)
    (hnet : e = .mqttPublish ∨ ∃ fr, e = .loraSend fr) :
    (handleCrash maxSizeBytes rotationCount ts fs crashLine genLine
      netAvailable publishRaises P key iv pt).2.get? 0 =
        some (.fs (.append crashLogFile crashLine)) ∧ 0 < j := by
  have hhead : (handleCrash maxSizeBytes rotationCount ts fs crashLine genLine
      netAvailable publishRaises P key iv pt).2.get? 0 =
        some (.fs (.append crashLogFile crashLine)) := by
    simp [handleCrash, blackboxLogCrash]
  refine ⟨hhead, ?_⟩
  rcases Nat.eq_zero_or_pos j with rfl | hj
  · rw [he] at hhead
    rcases hnet with rfl | ⟨fr, rfl⟩ <;> simp at hhead
  · exact hj

/-- Witness for C9: concrete crash with the network probe failing — the
LoRa send sits at index 2, after the crash-log append at index 0. -/
theorem C9_durability_before_network_witness :
    (handleCrash 1000 5 "T" [] "c" "g" false false testPrims (List.range 32)
      (List.range 16) [104, 105]).2.get? 0 =
        some (.fs (.append crashLogFile "c")) ∧ 0 < 2 :=
  C9_durability_before_network 1000 5 "T" [] "c" "g" false false testPrims
    (List.range 32) (List.range 16) [104, 105] 2
    (.loraSend (specCodecEncode testPrims (List.range 32) (List.range 16)
      [104, 105]))
    (by decide) (Or.inr ⟨_, rfl⟩)

/-- C4: for every confirmed crash whose delivery falls back to the radio
(failed network probe, or a raised publish), every frame handed to the
fallback transport's send is the SecureFrameCodec encoding of the
serialized crash payload, and is strictly longer than — in particular
never equal to — the plaintext payload.  The codec encode is modelled
from the spec (§4.4), since `LoRaCrashTX.send_payload` is imported by
`main.py` but not defined under `src/`. -/
theorem C4_fallback_encoded (maxSizeBytes rotationCount : Nat) (ts : String)
    (fs : LogDir) (crashLine genLine : String) (netAvailable publishRaises : Bool)
    (P : FernetPrims) (key iv pt : List Nat)
    (hP : FernetPrimsOk P) (hkok : ByteOk key)
    (hiv : iv.length = 16) (hivok : ByteOk iv) (hptok : ByteOk pt)
    (f : List Nat)
    (hf : CrashEvent.loraSend f ∈ (handleCrash maxSizeBytes rotationCount ts fs
      crashLine genLine netAvailable publishRaises P key iv pt).2) :
    f = specCodecEncode P key iv pt ∧ pt.length < f.length ∧ f ≠ pt := by
  have hframe : f = specCodecEncode P key iv pt := by
    simp only [handleCrash, List.mem_append] at hf
    rcases hf with hl | hr
    · rcases List.mem_map.mp hl with ⟨x, _, hx2⟩
      exact absurd hx2 (by simp)
    · revert hr
      by_cases hn : netAvailable <;> by_cases hp : publishRaises <;>
        simp [hn, hp, loraCrashSendPayload]
  have hct : (cbcEncrypt P.blockEnc key iv (padPKCS7 pt)).length =
      (padPKCS7 pt).length :=
    cbcEncrypt_length P.blockEnc key iv (padPKCS7 pt)
      (fun b hb => hP.enc_len key b hb) (fun b hb => hP.enc_ok key b hkok hb)
      hiv hivok (padPKCS7_length_mod pt) (byteOk_padPKCS7 hptok)
  have hlt : pt.length < (specCodecEncode P key iv pt).length := by
    rw [specCodecEncode, b64Encode_length]
    have hlen1 : (iv ++ P.hmacSha256 key
        (iv ++ cbcEncrypt P.blockEnc key iv (padPKCS7 pt)) ++
        cbcEncrypt P.blockEnc key iv (padPKCS7 pt)).length =
        48 + (padPKCS7 pt).length := by
      rw [List.length_append, List.length_append, hiv, hP.mac_len, hct]
    rw [hlen1, padPKCS7_length]
    omega
  refine ⟨hframe, by rw [hframe]; exact hlt, ?_⟩
  intro heq
  rw [heq] at hframe
  rw [← hframe] at hlt
  exact lt_irrefl _ hlt

/-- Witness for C4: a concrete crash with the network probe failing — the
single frame handed to the radio is the codec encoding of the payload
and differs from the plaintext. -/
theorem C4_fallback_encoded_witness :
    specCodecEncode testPrims (List.range 32) (List.range 16) [104, 105] =
      specCodecEncode testPrims (List.range 32) (List.range 16) [104, 105] ∧
    ([104, 105] : List Nat).length <
      (specCodecEncode testPrims (List.range 32) (List.range 16)
        [104, 105]).length ∧
    specCodecEncode testPrims (List.range 32) (List.range 16) [104, 105] ≠
      ([104, 105] : List Nat) :=
  C4_fallback_encoded 1000 5 "T" [] "c" "g" false false testPrims
    (List.range 32) (List.range 16) [104, 105] testPrimsOk (by decide)
    (by decide) (by decide) (by decide)
    (specCodecEncode testPrims (List.range 32) (List.range 16) [104, 105])
    (by decide)
